import Mathlib

/-!
Verification development for the SaplingFS repository.

The definitions below are a shallow embedding of the JavaScript sources:

* `worldGenTools.js` (terrain synthesis, feature placement, smoothing,
  chunk iteration) — the file `src/unnamed/part_000`;
* `parseWorld.js` (region/NBT binary codec) — the file `src/unnamed/part_001`.

Modelling conventions used throughout:

* JS integers are `ℤ` (all arithmetic in the embedded code stays far below
  2^53, so JS number arithmetic is exact integer arithmetic); array indices
  and counters are `ℕ`.
* `Math.random()` results are `ℚ` values drawn from an explicit stream
  `ρ : ℕ → ℚ` (each call consumes the next index); real runs have
  `0 ≤ ρ i < 1`.
* A JS object used as a string-keyed dictionary is an insertion-ordered
  association list `List (String × α)`; `for (const k in obj)` iterates in
  insertion order for the non-numeric keys used here, `obj[k] = v` replaces
  in place or appends, `delete obj[k]` removes.
* File handles (`MappedFile` objects) are opaque; they are represented by
  `ℕ` identifiers since no claim inspects their fields.
* The zlib compressor, the NBT serializer and `Bun.hash` are external
  libraries; a chunk's NBT tree is stored structurally and the byte-level
  artifacts are abstracted: the compressed size and the content hash of a
  rewritten chunk are opaque functions of its structural content, passed
  as parameters (`encSize`, `encHash`).
-/

/-! ### Coordinates

`Vector.js` is not present under `src/`; the coordinate model is
reconstructed from the specification and from every use site in the
sources. -/

/-- Modelled from the spec: `Vector.js` is missing from the sources. A
coordinate is an integer 3-tuple (spec §3); this mirrors the `Vector`
class observed at its use sites (`pos.x`/`pos.y`/`pos.z`). -/
structure Vec3 where
  x : ℤ
  y : ℤ
  z : ℤ
deriving DecidableEq, Repr

/-- Modelled from the spec: the canonical string/key form of a coordinate.
Use sites (`main.js` raycast) show the format is `"x,y,z"`. -/
def vecToString (v : Vec3) : String :=
  toString v.x ++ "," ++ toString v.y ++ "," ++ toString v.z

/-- Modelled from the spec: componentwise addition, `pos.add(dx, dy, dz)`. -/
def Vec3.add (v : Vec3) (dx dy dz : ℤ) : Vec3 :=
  ⟨v.x + dx, v.y + dy, v.z + dz⟩

/-- Modelled from the spec: the 6 axis-aligned unit shifts, indexed 0–5.
Use sites show indices 0–3 are the four horizontal shifts (±X, ±Z) and
4/5 are ±Y; the exact horizontal order is implementation-defined (spec §3)
and fixed here as +X, −X, +Z, −Z. -/
def Vec3.shifted (v : Vec3) (i : ℕ) : Vec3 :=
  match i with
  | 0 => v.add 1 0 0
  | 1 => v.add (-1) 0 0
  | 2 => v.add 0 0 1
  | 3 => v.add 0 0 (-1)
  | 4 => v.add 0 1 0
  | _ => v.add 0 (-1) 0

/-- Modelled from the spec: conversion to a chunk-relative coordinate given
a chunk's (x, z). Use sites (`worldGenTools.js` smoothing bounds check
`rel.y < 128 + 64` against world `y ∈ [-64, 128)`, and the old revision's
explicit `blocks[x - _x*16][y + 64][z - _z*16]`) fix the Y offset at 64. -/
def Vec3.relative (v : Vec3) (cx cz : ℤ) : Vec3 :=
  ⟨v.x - cx * 16, v.y + 64, v.z - cz * 16⟩

/-! ### Block identifier helpers (`parseWorld.js` lines 13–49) -/

/-- JS `String.prototype.split` with a one-character separator, written
at the character-list level and mirroring the JS semantics exactly
(`"".split(c) = [""]`, separators at the ends produce empty pieces). -/
def splitCharAux (c : Char) : List Char → List Char → List (List Char)
  | [], acc => [acc.reverse]
  | d :: rest, acc =>
    if d = c then acc.reverse :: splitCharAux c rest []
    else splitCharAux c rest (d :: acc)

/-- JS `s.split(c)` for a one-character separator `c`. -/
def splitChar (c : Char) (s : String) : List String :=
  (splitCharAux c s.data []).map String.mk

/-- JS `s.indexOf(c)` combined with the two `slice` calls of
`parseBlockString`: the characters strictly before the first `c`, and
`some` of the characters strictly after it (`none` models
`indexOf === -1`). -/
def breakAtChar (c : Char) : List Char → List Char × Option (List Char)
  | [] => ([], none)
  | d :: rest =>
    if d = c then ([], some rest)
    else
      let r := breakAtChar c rest
      (d :: r.1, r.2)

/-- JS `s.trim()`: strip whitespace from both ends. -/
def jsTrim (s : String) : String :=
  String.mk (((s.data.dropWhile Char.isWhitespace).reverse.dropWhile
    Char.isWhitespace).reverse)

/-- JS `Array.prototype.join(c)` at the character-list level. -/
def joinSep (c : Char) : List (List Char) → List Char
  | [] => []
  | [l] => l
  | l :: rest => l ++ c :: joinSep c rest

/-- Lexicographic codepoint comparison on character lists: the model of
JS `a.localeCompare(b) ≤ 0` for the ASCII property keys the program
uses. -/
def charListLe : List Char → List Char → Bool
  | [], _ => true
  | _ :: _, [] => false
  | a :: as, b :: bs =>
    if a < b then true
    else if b < a then false
    else charListLe as bs

/-- The key ordering of `stringifyBlock`'s property sort. -/
def strLe (a b : String) : Bool := charListLe a.data b.data

/-- `normalizeBlockName` from `parseWorld.js`: strips the namespace from a
block identifier (the part before the last `:`). -/
def normalizeBlockName (name : String) : String :=
  if name = "" then ""
  else
    let parts := splitChar ':' name
    if parts.length > 1 then parts.getLastD "" else parts.headD ""

/-- A parsed block specification: `{ name, properties }` as produced by
`parseBlockString`. Properties are an insertion-ordered association list
(the JS object). -/
structure BlockSpec where
  name : String
  props : List (String × String)
deriving DecidableEq, Repr

/-- JS object assignment `obj[k] = v` on a string-keyed dictionary:
replaces in place if the key exists, appends otherwise. -/
def jsObjSet (props : List (String × String)) (k v : String) :
    List (String × String) :=
  if props.any (fun p => p.1 = k) then
    props.map (fun p => if p.1 = k then (k, v) else p)
  else props ++ [(k, v)]

/-- The property-pair loop of `parseBlockString`: for each `key=value`
pair, skip empty keys, trim both sides, store into the properties object. -/
def parsePropsPairs (pairs : List String) : List (String × String) :=
  pairs.foldl
    (fun props pair =>
      let comps := splitChar '=' pair
      let key := comps.headD ""
      if key = "" then props
      else jsObjSet props (jsTrim key) (jsTrim ((comps.drop 1).headD "")))
    []

/-- `parseBlockString` from `parseWorld.js`: find the first `[`; when one
exists and the string ends with `]`, parse the bracket content (minus the
final `]`) as `key=value` pairs; the (trimmed) name is normalized. An
empty input denotes `"air"` (JS `block || "air"`). -/
def parseBlockString (block : String) : BlockSpec :=
  let name0 := if block = "" then "air" else block
  match breakAtChar '[' name0.data with
  | (before, some after) =>
    if name0.data.getLast? = some ']' then
      let propsPart := after.dropLast
      let props :=
        if propsPart.length > 0 then
          parsePropsPairs (splitChar ',' (String.mk propsPart))
        else []
      { name := normalizeBlockName (jsTrim (String.mk before)), props := props }
    else { name := normalizeBlockName (jsTrim name0), props := [] }
  | (_, none) => { name := normalizeBlockName (jsTrim name0), props := [] }

/-- `stringifyBlock` from `parseWorld.js`: normalized name plus the
properties sorted by key (JS `localeCompare`, which on the separator-free
ASCII property keys used by the program agrees with codepoint order, i.e.
with `String`'s order; JS `Array.sort` is stable, and any stable sort by
the same key ordering yields the same list, here `insertionSort`), joined
as comma-separated `key=value` pairs in brackets. -/
def stringifyBlock (name : String) (properties : List (String × String)) :
    String :=
  let normalized := normalizeBlockName name
  if properties.isEmpty then normalized
  else
    let sorted := List.insertionSort (fun a b => strLe a.1 b.1 = true) properties
    let props := String.mk (joinSep ',' (sorted.map
      (fun p => (p.1 ++ "=" ++ p.2).data)))
    normalized ++ "[" ++ props ++ "]"

/-- The canonical (normalized) form of a block string: parse then
re-stringify, exactly the composite applied by `blocksToRegion` before
palette insertion. -/
def canonicalBlock (block : String) : String :=
  let parsed := parseBlockString block
  stringifyBlock parsed.name parsed.props

/-- `isGroundBlock` from `worldGenTools.js`. -/
def isGroundBlock (block : String) : Bool :=
  block = "dirt" || block = "grass_block" || block = "stone"

/-- `isHeavyBlock` from `worldGenTools.js`. -/
def isHeavyBlock (block : String) : Bool :=
  isGroundBlock block || block = "oak_log" || block = "water"

/-- `isAir` from `worldGenTools.js`, applied to a lookup that may have
found no entry (JS `undefined`, here `none`): `!block || block === "air"`. -/
def isAirO (block : Option String) : Bool :=
  match block with
  | none => true
  | some b => b = "" || b = "air"

/-! ### The position→entry mapping (`worldGenTools.js` lines 45–53)

`mapping` is a JS object keyed by `pos.toString()`; it is modelled as an
insertion-ordered association list. -/

/-- One mapping entry: `{ pos, file, block }` (`worldGenTools.js` line 47).
File handles carry no information relevant to the claims and are opaque
`ℕ` identifiers. -/
structure MapEntry where
  pos : Vec3
  file : ℕ
  block : String
deriving DecidableEq, Repr

/-- The mapping object: insertion-ordered key→entry association list. -/
abbrev Mapping := List (String × MapEntry)

/-- JS `key in mapping`. -/
def mapHas (m : Mapping) (k : String) : Bool :=
  m.any (fun p => p.1 = k)

/-- JS `mapping[key]` (first — and in well-formed states only — binding). -/
def mapGet (m : Mapping) (k : String) : Option MapEntry :=
  (m.find? (fun p => p.1 = k)).map (·.2)

/-- JS `mapping[key] = entry`: replace in place or append. -/
def mapSet (m : Mapping) (k : String) (e : MapEntry) : Mapping :=
  if mapHas m k then m.map (fun p => if p.1 = k then (k, e) else p)
  else m ++ [(k, e)]

/-- JS `mapping[key].block = b`: in-place update of one entry's block
field (position and file untouched). -/
def mapSetBlock (m : Mapping) (k : String) (b : String) : Mapping :=
  m.map (fun p => if p.1 = k then (k, { p.2 with block := b }) else p)

/-- JS `delete mapping[key]`. -/
def mapDelete (m : Mapping) (k : String) : Mapping :=
  m.filter (fun p => p.1 ≠ k)

/-- JS `Object.values(mapping)` (insertion order). -/
def mapValues (m : Mapping) : List MapEntry :=
  m.map (·.2)

/-! ### World bounds and the frontier-growth guard
(`worldGenTools.js` lines 57–60 and 250–265) -/

/-- `WORLD_BOUNDS` from `worldGenTools.js` lines 57–60. -/
def WORLD_BOUNDS : Vec3 × Vec3 :=
  (⟨-16 * 20, -64, -16 * 20⟩, ⟨16 * 20, 320, 16 * 20⟩)

/-- The skip condition of the frontier loop (`worldGenTools.js` lines
250–255): the popped node is discarded when it is already mapped or when
any coordinate lies strictly outside `WORLD_BOUNDS` — note the code uses
`<` / `>`, so both bounds are accepted inclusively. -/
def frontierSkip (m : Mapping) (pos : Vec3) : Bool :=
  mapHas m (vecToString pos) ||
  pos.x < WORLD_BOUNDS.1.x || pos.x > WORLD_BOUNDS.2.x ||
  pos.y < WORLD_BOUNDS.1.y || pos.y > WORLD_BOUNDS.2.y ||
  pos.z < WORLD_BOUNDS.1.z || pos.z > WORLD_BOUNDS.2.z

/-- The frontier-growth assignment `mapping[key] = { pos, file, block }`
(`worldGenTools.js` line 367), performed whenever `frontierSkip` is
false. -/
def frontierAssign (m : Mapping) (pos : Vec3) (file : ℕ) (block : String) :
    Mapping :=
  mapSet m (vecToString pos) ⟨pos, file, block⟩

/-! ### Dynamic terrain bounds (`worldGenTools.js` lines 62–65, 369–374;
`main.js` lines 75–80 uses the identical update on snapshot restore) -/

/-- The pair of dynamic terrain-bound corner vectors. -/
structure TerrainBounds where
  mins : Vec3
  maxs : Vec3
deriving DecidableEq, Repr

/-- The per-axis `if (p < mins.a) mins.a = p; else if (p > maxs.a)
maxs.a = p;` update. -/
def axisUpdate (lo hi p : ℤ) : ℤ × ℤ :=
  if p < lo then (p, hi) else if p > hi then (lo, p) else (lo, hi)

/-- The incremental terrain-bound update run after each frontier
assignment (`worldGenTools.js` lines 369–374) and after each snapshot
restore insertion (`main.js` lines 75–80). -/
def updateTerrainBounds (b : TerrainBounds) (pos : Vec3) : TerrainBounds :=
  let px := axisUpdate b.mins.x b.maxs.x pos.x
  let py := axisUpdate b.mins.y b.maxs.y pos.y
  let pz := axisUpdate b.mins.z b.maxs.z pos.z
  ⟨⟨px.1, py.1, pz.1⟩, ⟨px.2, py.2, pz.2⟩⟩

/-- Componentwise inclusive containment in a terrain-bound box. -/
def inTerrainBounds (b : TerrainBounds) (p : Vec3) : Prop :=
  b.mins.x ≤ p.x ∧ p.x ≤ b.maxs.x ∧
  b.mins.y ≤ p.y ∧ p.y ≤ b.maxs.y ∧
  b.mins.z ≤ p.z ∧ p.z ≤ b.maxs.z

instance (b : TerrainBounds) (p : Vec3) : Decidable (inTerrainBounds b p) := by
  unfold inTerrainBounds; infer_instance

/-! ### Mapping well-formedness and the mutation steps -/

/-- Well-formedness of the mapping object: keys are pairwise distinct (a
JS object cannot hold two bindings of one key) and every entry is stored
under the canonical string form of its own position. -/
def MappingWF (m : Mapping) : Prop :=
  (m.map (·.1)).Nodup ∧ ∀ p ∈ m, vecToString p.2.pos = p.1

/-- Every mutation the sources apply to `mapping`:

* `assign`: `mapping[pos.toString()] = { pos, file, block }` — frontier
  growth (`worldGenTools.js` line 367), tree placement (line 348), and the
  smoothing pass's restore and move (lines 463 and 468–469; the move first
  sets `entry.pos = bestPosition.abs` and keys by `abs.toString()`);
* `setBlock`: in-place reclassification `mapping[key].block = b` — pond
  fill (line 320), stub conversion (line 461) and the decoration rules
  (lines 481, 491, 503, 527);
* `remove`: `delete mapping[key]` — the smoothing pass's temporary removal
  (line 427) and the synchronization loop's divergence removal
  (`main.js` line 244). -/
inductive MapStep : Mapping → Mapping → Prop
  | assign (m : Mapping) (pos : Vec3) (file : ℕ) (block : String) :
      MapStep m (mapSet m (vecToString pos) ⟨pos, file, block⟩)
  | setBlock (m : Mapping) (k b : String) :
      MapStep m (mapSetBlock m k b)
  | remove (m : Mapping) (k : String) :
      MapStep m (mapDelete m k)

/-! ### Tree placement (`worldGenTools.js` lines 101–126 and 334–352) -/

/-- The tree stump: `callback(pos.add(0, i, 0), "oak_log")` for
`i = 0 … 4`. -/
def treeTrunk : List ((ℤ × ℤ × ℤ) × String) :=
  (List.range 5).map (fun i => ((0, (i : ℤ), 0), "oak_log"))

/-- The bottom leaf layers: `i = 0, 1`, `j, k = -2 … 2`, skipping the
trunk column and, on the upper layer, the four corners. -/
def treeBottomLeaves : List ((ℤ × ℤ × ℤ) × String) :=
  (List.range 2).flatMap (fun i =>
    (List.range 5).flatMap (fun j5 =>
      (List.range 5).filterMap (fun k5 =>
        let j : ℤ := (j5 : ℤ) - 2
        let k : ℤ := (k5 : ℤ) - 2
        if j = 0 ∧ k = 0 then none
        else if i = 1 ∧ j.natAbs = 2 ∧ k.natAbs = 2 then none
        else some ((j, (i : ℤ) + 2, k), "oak_leaves"))))

/-- The top leaf layers: `i = 0, 1`, `j, k = -1 … 1`, skipping the trunk
cell on the lower layer and the corners on the upper one. -/
def treeTopLeaves : List ((ℤ × ℤ × ℤ) × String) :=
  (List.range 2).flatMap (fun i =>
    (List.range 3).flatMap (fun j3 =>
      (List.range 3).filterMap (fun k3 =>
        let j : ℤ := (j3 : ℤ) - 1
        let k : ℤ := (k3 : ℤ) - 1
        if i = 0 ∧ j = 0 ∧ k = 0 then none
        else if i = 1 ∧ j ≠ 0 ∧ k ≠ 0 then none
        else some ((j, (i : ℤ) + 4, k), "oak_leaves"))))

/-- `forTreeBlocks` from `worldGenTools.js`: the 62 (position, block)
pairs that make up one tree, in callback order. -/
def forTreeBlocks (pos : Vec3) : List (Vec3 × String) :=
  (treeTrunk ++ treeBottomLeaves ++ treeTopLeaves).map
    (fun t => (pos.add t.1.1 t.1.2.1 t.1.2.2, t.2))

/-- One step of the tree-resolution callback (`worldGenTools.js` lines
344–350). State: (mapping, unallocated file list, reserved file pool).
`tree.files.pop()` removes from the END of the pool; on a collision the
popped handle is appended by `fileList.push(...)` to the END of the
unallocated list, and the mapping is untouched. -/
def treePlaceStep (st : Mapping × List ℕ × List ℕ) (pb : Vec3 × String) :
    Mapping × List ℕ × List ℕ :=
  let key := vecToString pb.1
  let popped := st.2.2.getLastD 0
  let files' := st.2.2.dropLast
  if mapHas st.1 key then (st.1, st.2.1 ++ [popped], files')
  else (mapSet st.1 key ⟨pb.1, popped, pb.2⟩, st.2.1, files')

/-- Resolution of one pending tree whose base position (anchor + 1) is
already known: fold the 62 tree blocks through `treePlaceStep`
(`worldGenTools.js` lines 343–351). -/
def treeResolve (m : Mapping) (fileList : List ℕ) (pos : Vec3)
    (files : List ℕ) : Mapping × List ℕ × List ℕ :=
  (forTreeBlocks pos).foldl treePlaceStep (m, fileList, files)

/-- The anchor height used by pond and tree resolution
(`worldGenTools.js` lines 284–289 and 336–341): the greatest Y among
mapped entries sharing the feature's X/Z (the code sorts the candidates
by descending Y and takes the first; `none` models the crash on an empty
candidate list). -/
def anchorY (m : Mapping) (x z : ℤ) : Option ℤ :=
  (((mapValues m).filter (fun c => c.pos.x = x && c.pos.z = z)).map
    (·.pos.y)).max?

/-- Full resolution of a pending tree recorded at `treePos`
(`worldGenTools.js` lines 334–352): look up the anchor column height,
raise the base one block above it, and place the 62 tree blocks. -/
def treeResolveAt (m : Mapping) (fileList : List ℕ) (treePos : Vec3)
    (files : List ℕ) : Option (Mapping × List ℕ × List ℕ) :=
  match anchorY m treePos.x treePos.z with
  | none => none
  | some y => some (treeResolve m fileList ⟨treePos.x, y + 1, treePos.z⟩ files)

/-! ### Chunk iteration (`worldGenTools.js` lines 140–204) -/

/-- The region restriction of `forMappedChunks`' marking phase
(`worldGenTools.js` lines 142–146): with both restriction arguments
non-null, an entry is marked only when `Math.floor(pos.x / (16*32))` and
`Math.floor(pos.z / (16*32))` match; otherwise every entry is marked. -/
def regionMatch (rx rz : Option ℤ) (e : MapEntry) : Bool :=
  match rx, rz with
  | some rx, some rz =>
      (e.pos.x.fdiv (16 * 32) = rx) && (e.pos.z.fdiv (16 * 32) = rz)
  | _, _ => true

/-- One invocation record handed to the `forMappedChunks` callback: the
collected entries, the chunk coordinates (`none` models the JS
`undefined` produced when no valid entry exists) and the chunk bounds
(`none` models the NaN bounds computed from `undefined`). The fresh
air-filled 16×192×16 block volume passed alongside carries no
information and is omitted. -/
structure ChunkCall where
  entries : List MapEntry
  cx : Option ℤ
  cz : Option ℤ
  bounds : Option (Vec3 × Vec3)
deriving DecidableEq, Repr

/-- `iterateMappedChunks` (`worldGenTools.js` lines 154–204): the first
still-valid binding fixes the chunk coordinate; every valid binding of
that chunk is collected and unmarked; the return value is the number of
bindings still marked valid. Result: (callback record, valid keys after,
remaining-valid count). -/
def iterateMappedChunks (m : Mapping) (valid : List String) :
    ChunkCall × List String × ℕ :=
  match m.find? (fun p => valid.contains p.1) with
  | none =>
      ({ entries := [], cx := none, cz := none, bounds := none }, valid, 0)
  | some p0 =>
      let cx := p0.2.pos.x.fdiv 16
      let cz := p0.2.pos.z.fdiv 16
      let collected := m.filter (fun p => valid.contains p.1 &&
        p.2.pos.x.fdiv 16 = cx && p.2.pos.z.fdiv 16 = cz)
      let valid' := valid.filter (fun k => !(collected.map (·.1)).contains k)
      let remaining := (m.filter (fun p => valid'.contains p.1)).length
      ({ entries := collected.map (·.2), cx := some cx, cz := some cz,
         bounds := some (⟨cx * 16, -64, cz * 16⟩,
                         ⟨cx * 16 + 16, 128, cz * 16 + 16⟩) },
       valid', remaining)

/-- The `do … while (validEntries > 0)` loop of `forMappedChunks`
(`worldGenTools.js` lines 148–152), with explicit fuel; returns the list
of callback invocations in order. Callback-side mutations of the mapping
are not modelled (no claim about them is made here). -/
def forMappedChunksRun (m : Mapping) : List String → ℕ → List ChunkCall
  | _, 0 => []
  | valid, fuel + 1 =>
    let r := iterateMappedChunks m valid
    if r.2.2 > 0 then r.1 :: forMappedChunksRun m r.2.1 fuel
    else [r.1]

/-- `forMappedChunks` (`worldGenTools.js` lines 140–152): mark all
entries passing the region restriction, then iterate chunks until no
marked entry remains. -/
def forMappedChunks (m : Mapping) (rx rz : Option ℤ) : List ChunkCall :=
  let valid := (m.filter (fun p => regionMatch rx rz p.2)).map (·.1)
  forMappedChunksRun m valid (m.length + 1)

/-! ### Pond flood-fill (`worldGenTools.js` lines 282–331) -/

/-- A pending tree: candidate location plus its reserved file pool
(`worldGenTools.js` lines 398–401). -/
structure PendingTree where
  pos : Vec3
  files : List ℕ
deriving DecidableEq, Repr

/-- `isGroundBlock` applied to an optional lookup (JS `undefined`
compares unequal to every ground name, so `none` yields `false`). -/
def isGroundBlockO (block : Option String) : Bool :=
  match block with
  | none => false
  | some b => isGroundBlock b

/-- The neighbor scan of the pond fill (`worldGenTools.js` lines
307–317): walk the six shifts, break with `skip = true` at the first air
among the four horizontal ones, and count `"water"` neighbors seen before
the break. Returns (neighbors, skip). -/
def pondScan (m : Mapping) (curr : Vec3) : ℕ × Bool :=
  (List.range 6).foldl
    (fun acc j =>
      if acc.2 then acc
      else
        let block := (mapGet m (vecToString (curr.shifted j))).map (·.block)
        if j < 4 && isAirO block then (acc.1, true)
        else if block = some "water" then (acc.1 + 1, acc.2)
        else acc)
    (0, false)

/-- One body execution of the pond flood-fill loop (`worldGenTools.js`
lines 295–327), against the random stream `ρ` with next unconsumed index
`i`. `Math.random()` is called (and the index advanced) exactly where the
JS short-circuit evaluation calls it. Returns the updated mapping, queue
and random index. -/
def pondBody (trees : List PendingTree) (ρ : ℕ → ℚ) (m : Mapping)
    (queue : List Vec3) (i : ℕ) : Mapping × List Vec3 × ℕ :=
  match queue with
  | [] => (m, [], i)
  | curr :: rest =>
    let key := vecToString curr
    if ¬ mapHas m key then (m, rest, i)
    else if trees.any (fun c =>
        decide (|c.pos.x - curr.x| < 3) && decide (|c.pos.z - curr.z| < 3))
      then (m, rest, i)
    else if isGroundBlockO
        ((mapGet m (vecToString (curr.add 0 1 0))).map (·.block))
      then (m, rest, i)
    else
      let scan := pondScan m curr
      if scan.2 then (m, rest, i)
      else
        let m1 := mapSetBlock m key "water"
        let h := (List.range 4).foldl
          (fun (acc : List Vec3 × ℕ) j =>
            if scan.1 < 3 then
              if ρ acc.2 < 1 / 10 then (acc.1, acc.2 + 1)
              else (acc.1 ++ [curr.shifted j], acc.2 + 1)
            else (acc.1 ++ [curr.shifted j], acc.2))
          (rest, i)
        let v1 : List Vec3 × ℕ :=
          if curr.y < 127 then
            (if ρ h.2 < 1 / 20 then (h.1 ++ [curr.add 0 1 0], h.2 + 1)
             else (h.1, h.2 + 1))
          else h
        let v2 : List Vec3 × ℕ :=
          if curr.y > -64 then
            (if ρ v1.2 < 1 / 20 then (v1.1 ++ [curr.add 0 (-1) 0], v1.2 + 1)
             else (v1.1, v1.2 + 1))
          else v1
        (m1, v2.1, v2.2)

/-- Final state of a pond flood-fill run: mapping, remaining queue, next
random index, the final loop-guard draw `Math.floor(rand * 2000)`, and
the number of body iterations executed. -/
structure PondResult where
  m : Mapping
  queue : List Vec3
  nextRand : ℕ
  stopDraw : ℤ
  iters : ℕ
deriving Repr

/-- The pond flood-fill `do … while (Math.floor(Math.random() * 2000)
!== 0 && fillNodes.length > 0)` loop (`worldGenTools.js` lines 293–329),
with explicit fuel; `none` models fuel exhaustion (the real loop has no
such bound). -/
def pondFillRun (trees : List PendingTree) (ρ : ℕ → ℚ) :
    ℕ → Mapping → List Vec3 → ℕ → ℕ → Option PondResult
  | 0, _, _, _, _ => none
  | fuel + 1, m, queue, i, iters =>
    let b := pondBody trees ρ m queue i
    let draw := Rat.floor (ρ b.2.2 * 2000)
    if draw ≠ 0 ∧ b.2.1 ≠ [] then
      pondFillRun trees ρ fuel b.1 b.2.1 (b.2.2 + 1) (iters + 1)
    else some ⟨b.1, b.2.1, b.2.2 + 1, draw, iters + 1⟩

/-! ### Ore-vein count (`worldGenTools.js` line 510) -/

/-- `Math.floor(Math.random() * entries.length / 250)` — the per-chunk
vein count, for the random draw `r` and entry count `n`. -/
def veinCount (r : ℚ) (n : ℕ) : ℤ :=
  Rat.floor (r * n / 250)

/-! ### Region codec model (`parseWorld.js` lines 64–345)

The zlib compressor, the NBT serializer and `Bun.hash` are external
libraries specified as inverses of one another; a chunk is therefore
stored structurally (its parsed NBT section list), and the byte-level
artifacts of a rewritten chunk — its compressed length and its content
hash — are abstracted into parameter functions `encSize`/`encHash` of the
structural content. The header's offset table is abstracted into one slot
per header index (the non-overlapping sector layout of a well-formed
region file). -/

/-- One palette entry as stored in the NBT tree (`parseWorld.js` lines
275–297): the `Name` string (the encoder re-attaches the `minecraft:`
namespace) and the `Properties` compound as an association list (an
absent compound is the empty list). -/
structure PaletteEntry where
  name : String
  props : List (String × String)
deriving DecidableEq, Repr

/-- The `block_states` compound of one section: the palette and the
optional packed-index `data`. Each NBT long is the pair of the unsigned
bit patterns of its two stored 32-bit halves, exactly the two array
entries the JS code writes and reads. -/
structure BlockStates where
  palette : List PaletteEntry
  data : Option (List (ℕ × ℕ))
deriving DecidableEq, Repr

/-- One chunk section: its `Y` index and optional `block_states`
(`parseWorld.js` line 108 skips sections without one). Fields that never
influence decoded blocks (`SkyLight`, biomes, …) are absorbed into the
chunk's `rest` component. -/
structure McSection where
  y : ℤ
  blockStates : Option BlockStates
deriving DecidableEq, Repr

/-- One chunk slot of a region buffer. `hashVal` abstracts
`Bun.hash(compressedData)` of the chunk's current compressed bytes;
`sections` is the parsed section list, `none` when the bytes fail to
decompress or parse ("corrupted"); `rest` abstracts all other chunk
content contributing to its serialized form. -/
structure McChunk where
  rest : ℕ
  hashVal : ℕ
  sections : Option (List McSection)
deriving DecidableEq, Repr

/-- A region buffer: 1024 chunk slots indexed by header position
`i`, holding the chunk at `(_x, _z) = (rx*32 + i%32, rz*32 + i/32)`. -/
abbrev RegionBuf := ℕ → McChunk

/-- The dense block-name volume (the `blocks` array), indexed relative to
the bounds exactly as the JS code does:
`blocks[x - X_MIN][y - Y_MIN][z - Z_MIN]`. -/
abbrev Volume := ℤ → ℤ → ℤ → String

/-- One array store `blocks[a][b][c] = s`. -/
def vset (v : Volume) (a b c : ℤ) (s : String) : Volume :=
  fun a' b' c' => if a' = a ∧ b' = b ∧ c' = c then s else v a' b' c'

/-- The chunk X coordinate of header slot `i`
(`_x = rx * 32 + Math.floor(i % 32)`). -/
def chunkX (rx : ℤ) (i : ℕ) : ℤ := rx * 32 + (i % 32 : ℕ)

/-- The chunk Z coordinate of header slot `i`
(`_z = rz * 32 + Math.floor(i / 32)`). -/
def chunkZ (rz : ℤ) (i : ℕ) : ℤ := rz * 32 + (i / 32 : ℕ)

/-- The bounds filter applied to chunk slots (`parseWorld.js` lines
76–79): skip when `_x < Math.floor(X_MIN / 16)` or `_x >= X_MAX / 16`
(the latter an exact rational comparison, i.e. keep when
`16 * _x < X_MAX`), and likewise for Z. -/
def chunkInBounds (bounds : Vec3 × Vec3) (cx cz : ℤ) : Prop :=
  bounds.1.x.fdiv 16 ≤ cx ∧ 16 * cx < bounds.2.x ∧
  bounds.1.z.fdiv 16 ≤ cz ∧ 16 * cz < bounds.2.z

instance (bounds : Vec3 × Vec3) (cx cz : ℤ) :
    Decidable (chunkInBounds bounds cx cz) := by
  unfold chunkInBounds; infer_instance

/-- Decoded palette string of one NBT palette entry (`parseWorld.js`
lines 112–121): rebuild the property dictionary and re-stringify. -/
def decodePaletteEntry (e : PaletteEntry) : String :=
  stringifyBlock e.name e.props

/-- The 4-bit index extraction (`parseWorld.js` lines 155–156):
`shift = k < 8 ? 28 - k*4 : 28 - (k-8)*4`, word 0 for `k < 8`, word 1
otherwise, then `>> shift & 0b1111`. The JS arithmetic shift on the
signed 32-bit value followed by the 4-bit mask extracts the same bits as
a logical shift on the unsigned pattern, since `shift ≤ 28`. -/
def extractId (w : ℕ × ℕ) (k : ℕ) : ℕ :=
  if k < 8 then (w.1 >>> (28 - k * 4)) % 16
  else (w.2 >>> (28 - (k - 8) * 4)) % 16

/-- One guarded store of both decode paths (`parseWorld.js` lines
135–142 and 158–166): skip when the absolute coordinate falls outside
the bounds, otherwise store `palette[id]` relative to the bounds (JS
`palette[id]` with an out-of-range id stores `undefined`, modelled by
the `"undefined"` default). -/
def decodeWrite (bounds : Vec3 × Vec3) (pal : List String) (id : ℕ)
    (x y z : ℤ) (v : Volume) : Volume :=
  if x < bounds.1.x ∨ x ≥ bounds.2.x ∨ y < bounds.1.y ∨
     y ≥ bounds.2.y ∨ z < bounds.1.z ∨ z ≥ bounds.2.z then v
  else vset v (x - bounds.1.x) (y - bounds.1.y) (z - bounds.1.z)
    (pal.getD id "undefined")

/-- The packed-data decode loops (`parseWorld.js` lines 152–171) for
section `sy` of chunk (cx, cz): for each long `j` and sub-index `k`,
store id `extractId` at `(x, y, z) = (cx*16 + 15 - k, sy*16 + j/16,
cz*16 + j%16)`. -/
def decodeDataStore (bounds : Vec3 × Vec3) (cx cz sy : ℤ)
    (pal : List String) (longs : List (ℕ × ℕ)) (v : Volume) : Volume :=
  (List.range longs.length).foldl
    (fun (v : Volume) (j : ℕ) =>
      (List.range 16).foldl
        (fun (v : Volume) (k : ℕ) =>
          decodeWrite bounds pal (extractId (longs.getD j (0, 0)) k)
            (cx * 16 + 15 - (k : ℤ)) (sy * 16 + ((j / 16 : ℕ) : ℤ))
            (cz * 16 + ((j % 16 : ℕ) : ℤ)) v)
        v)
    v

/-- The palette-only fill path (`parseWorld.js` lines 124–145), taken
when a section has no `data` field: every in-bounds cell of the section
cube receives `palette[0]` (the inner loop runs `l = 15 … 0`). -/
def decodeFill (bounds : Vec3 × Vec3) (cx cz sy : ℤ) (pal : List String)
    (v : Volume) : Volume :=
  (List.range 16).foldl
    (fun (v : Volume) (j : ℕ) =>
      (List.range 16).foldl
        (fun (v : Volume) (k : ℕ) =>
          (List.range 16).foldl
            (fun (v : Volume) (l : ℕ) =>
              decodeWrite bounds pal 0 (cx * 16 + (15 - (l : ℤ)))
                (sy * 16 + (j : ℤ)) (cz * 16 + (k : ℤ)) v)
            v)
        v)
    v

/-- Decode of one section (`parseWorld.js` lines 107–173): skip without
`block_states`; decode the palette; without `data` run the fill path
(which has no section-level Y check); with `data` skip sections outside
`Math.floor(Y_MIN/16) ≤ _y` and `_y < Y_MAX/16`, then run the packed
decode. -/
def decodeSection (bounds : Vec3 × Vec3) (cx cz : ℤ) (s : McSection)
    (v : Volume) : Volume :=
  match s.blockStates with
  | none => v
  | some bs =>
    let pal := bs.palette.map decodePaletteEntry
    match bs.data with
    | none => decodeFill bounds cx cz s.y pal v
    | some longs =>
      if s.y < bounds.1.y.fdiv 16 then v
      else if 16 * s.y ≥ bounds.2.y then v
      else decodeDataStore bounds cx cz s.y pal longs v

/-- Decode of one chunk's section list, in file order. -/
def decodeSections (bounds : Vec3 × Vec3) (cx cz : ℤ)
    (secs : List McSection) (v : Volume) : Volume :=
  secs.foldl (fun v s => decodeSection bounds cx cz s v) v

/-- The slot loop of `regionToBlocks` (`parseWorld.js` lines 71–175):
on the first in-bounds slot, record its hash and return the `null`
sentinel if it equals `expectHash`; return `null` on a corrupted chunk
(aborting the whole call); otherwise decode the chunk's sections into
the volume and continue. -/
def regionToBlocksGo (bounds : Vec3 × Vec3) (rx rz : ℤ) (r : RegionBuf)
    (expectHash : Option ℕ) :
    List ℕ → Option ℕ → Volume → Option ℕ × Volume
  | [], firstHash, v => (firstHash, v)
  | i :: rest, firstHash, v =>
    if chunkInBounds bounds (chunkX rx i) (chunkZ rz i) then
      if firstHash = none ∧ expectHash = some (r i).hashVal then (none, v)
      else
        match (r i).sections with
        | none => (none, v)
        | some secs =>
          regionToBlocksGo bounds rx rz r expectHash rest
            (some ((firstHash.getD (r i).hashVal)))
            (decodeSections bounds (chunkX rx i) (chunkZ rz i) secs v)
    else regionToBlocksGo bounds rx rz r expectHash rest firstHash v

/-- `regionToBlocks` (`parseWorld.js` lines 64–179). Returns the pair of
the JS return value (`none` models `null`) and the final volume. -/
def regionToBlocks (r : RegionBuf) (v : Volume) (rx rz : ℤ)
    (bounds : Vec3 × Vec3) (expectHash : Option ℕ) : Option ℕ × Volume :=
  regionToBlocksGo bounds rx rz r expectHash (List.range 1024) none v

/-- The re-encode cell scan order of one section (`parseWorld.js` lines
233–235): y outer, then z, then x, each over 16 offsets. -/
def sectionCells : List (ℕ × ℕ × ℕ) :=
  (List.range 16).flatMap (fun yo => (List.range 16).flatMap (fun zo =>
    (List.range 16).map (fun xo => (yo, zo, xo))))

/-- The block string fetched for one encode cell (`parseWorld.js` lines
237–248): `"air"` outside bounds, else the volume cell, then normalized
through `parseBlockString` + `stringifyBlock`. -/
def cellBlock (v : Volume) (bounds : Vec3 × Vec3) (cx cz sy : ℤ)
    (c : ℕ × ℕ × ℕ) : String :=
  let x := cx * 16 + (c.2.2 : ℤ)
  let y := sy * 16 + (c.1 : ℤ)
  let z := cz * 16 + (c.2.1 : ℤ)
  let block :=
    if bounds.1.x ≤ x ∧ x < bounds.2.x ∧ bounds.1.y ≤ y ∧ y < bounds.2.y ∧
       bounds.1.z ≤ z ∧ z < bounds.2.z
    then v (x - bounds.1.x) (y - bounds.1.y) (z - bounds.1.z)
    else "air"
  canonicalBlock block

/-- One step of the palette/ids accumulation (`parseWorld.js` lines
250–253): append the normalized block to the palette when absent, then
push `palette.indexOf(block)`. -/
def bpStep (acc : List String × List ℕ) (b : String) :
    List String × List ℕ :=
  let pal := if b ∈ acc.1 then acc.1 else acc.1 ++ [b]
  (pal, acc.2 ++ [pal.indexOf b])

/-- The palette/ids accumulation over a section's cell scan. -/
def buildPaletteIds (cells : List String) : List String × List ℕ :=
  cells.foldl bpStep ([], [])

/-- One packed 32-bit half (`parseWorld.js` lines 261–263):
`Σ ids[start + t] << 4t` over `t = 0 … 7`, reduced mod 2³² as the JS
int32 arithmetic and the NBT storage do. For ids < 16 the nibbles are
disjoint and the sum is already below 2³². -/
def packWord (ids : List ℕ) (start : ℕ) : ℕ :=
  (((List.range 8).map (fun t => (ids.getD (start + t) 0) <<< (4 * t))).sum)
    % 2 ^ 32

/-- The long-array packer (`parseWorld.js` lines 259–265): for each group
of 16 ids, the pair (high half = ids 8–15, low half = ids 0–7). -/
def packLongs (ids : List ℕ) : List (ℕ × ℕ) :=
  (List.range (ids.length / 16)).map (fun j =>
    (packWord ids (16 * j + 8), packWord ids (16 * j)))

/-- The NBT palette entry written by the encoder (`parseWorld.js` lines
275–297): `Name = "minecraft:" + parsed.name`, `Properties` from the
parsed dictionary (absent, i.e. `[]`, when empty). -/
def encPaletteEntry (b : String) : PaletteEntry :=
  { name := "minecraft:" ++ (parseBlockString b).name,
    props := (parseBlockString b).props }

/-- Re-encode of one section (`parseWorld.js` lines 226–319): fresh
palette and ids from the section's 16×16×16 cells; packed longs present
exactly when the palette has more than one entry (the code first builds
`data` conditionally and then deletes it again for one-entry palettes). -/
def encodeSection (v : Volume) (bounds : Vec3 × Vec3) (cx cz : ℤ)
    (s : McSection) : McSection :=
  let pi := buildPaletteIds (sectionCells.map (cellBlock v bounds cx cz s.y))
  { y := s.y,
    blockStates := some
      { palette := pi.1.map encPaletteEntry,
        data := if pi.1.length > 1 then some (packLongs pi.2) else none } }

/-- Warnings logged by `blocksToRegion`. -/
inductive EncWarning
  | corrupt (cx cz : ℤ)
  | oversize (cx cz : ℤ)
deriving DecidableEq, Repr

/-- The per-slot step of `blocksToRegion` (`parseWorld.js` lines
197–341): skip out-of-bounds slots; warn and keep a corrupted chunk;
re-encode all sections; when the compressed payload plus its 5-byte
header would exceed one 4096-byte sector, warn and leave the chunk's
prior bytes untouched; otherwise splice the new payload in (the new
compressed bytes determine the new content hash). -/
def blocksToRegionSlot (encSize encHash : ℕ → List McSection → ℕ)
    (v : Volume) (bounds : Vec3 × Vec3) (rx rz : ℤ) (i : ℕ) (c : McChunk) :
    McChunk × List EncWarning :=
  if chunkInBounds bounds (chunkX rx i) (chunkZ rz i) then
    match c.sections with
    | none => (c, [EncWarning.corrupt (chunkX rx i) (chunkZ rz i)])
    | some secs =>
      let secs' := secs.map (encodeSection v bounds (chunkX rx i) (chunkZ rz i))
      if encSize c.rest secs' + 5 > 4096 then
        (c, [EncWarning.oversize (chunkX rx i) (chunkZ rz i)])
      else ({ rest := c.rest, hashVal := encHash c.rest secs',
              sections := some secs' }, [])
  else (c, [])

/-- `blocksToRegion` (`parseWorld.js` lines 192–345): process the 1024
header slots in order, collecting warnings; always returns (the call
itself never fails). -/
def blocksToRegion (encSize encHash : ℕ → List McSection → ℕ)
    (v : Volume) (r : RegionBuf) (rx rz : ℤ) (bounds : Vec3 × Vec3) :
    RegionBuf × List EncWarning :=
  (List.range 1024).foldl
    (fun (a : RegionBuf × List EncWarning) i =>
      (fun j' => if j' = i then
          (blocksToRegionSlot encSize encHash v bounds rx rz i (a.1 i)).1
        else a.1 j',
       a.2 ++ (blocksToRegionSlot encSize encHash v bounds rx rz i (a.1 i)).2))
    (r, [])

/-! ### Well-formed block specifications

The round-trip statement quantifies over the block specifications of
spec §3: a normalized name plus key-sorted state properties, all free of
the characters that are structural to the codec's canonical string form. -/

/-- Characters with structural meaning to the codec's string format
(brackets, separators, the namespace colon, whitespace trimmed by
`trim`). -/
def structuralChar (ch : Char) : Bool :=
  ch = '[' || ch = ']' || ch = ',' || ch = '=' || ch = ':' || ch.isWhitespace

/-- A property value: free of structural characters (may be empty). -/
def valueOK (s : String) : Bool :=
  s.data.all (fun ch => !structuralChar ch)

/-- A name or property key: nonempty and free of structural characters. -/
def partOK (s : String) : Bool :=
  (decide (s ≠ "")) && valueOK s

/-- A well-formed block specification in canonical order: name and keys
well-formed, keys distinct and sorted by the codec's key ordering. -/
def specWF (n : String) (ps : List (String × String)) : Prop :=
  partOK n = true ∧ (∀ p ∈ ps, partOK p.1 = true ∧ valueOK p.2 = true) ∧
  (ps.map (·.1)).Nodup ∧
  List.Pairwise (fun a b : String × String => strLe a.1 b.1 = true) ps

/-! ## Theorems -/

/-- C6 counterexample: with an empty mapping, the frontier guard accepts
the position (320, 32, 0) whose x-component equals the world bound's
maximum, so an entry is assigned at a position violating the claimed
strict upper bound `p < max` (the code's check `pos.x > WORLD_BOUNDS[1].x`
is inclusive). -/
theorem frontier_accepts_max_edge :
    frontierSkip [] ⟨320, 32, 0⟩ = false ∧
    mapGet (frontierAssign [] ⟨320, 32, 0⟩ 7 "grass_block") "320,32,0" =
      some ⟨⟨320, 32, 0⟩, 7, "grass_block"⟩ ∧
    ¬ ((320 : ℤ) < WORLD_BOUNDS.2.x) := by
  refine ⟨by decide, by decide, by decide⟩

/-- C6 amended: whenever the frontier loop assigns an entry (i.e. the skip
guard is false), the position lies within the hard world bound with BOTH
ends inclusive: `min ≤ p ≤ max` componentwise. (Tree placement performs
no world-bound check and is not covered.) -/
theorem frontier_assign_in_world_bounds (m : Mapping) (pos : Vec3)
    (h : frontierSkip m pos = false) :
    WORLD_BOUNDS.1.x ≤ pos.x ∧ pos.x ≤ WORLD_BOUNDS.2.x ∧
    WORLD_BOUNDS.1.y ≤ pos.y ∧ pos.y ≤ WORLD_BOUNDS.2.y ∧
    WORLD_BOUNDS.1.z ≤ pos.z ∧ pos.z ≤ WORLD_BOUNDS.2.z := by
  simp only [frontierSkip, Bool.or_eq_false_iff, decide_eq_false_iff_not,
    not_lt] at h
  exact ⟨h.1.1.1.1.1.2, h.1.1.1.1.2, h.1.1.1.2, h.1.1.2, h.1.2, h.2⟩

/-- C6 witness: the amended bound theorem applied at the concrete accepted
position (0, 32, 0). -/
theorem frontier_assign_in_world_bounds_witness :
    WORLD_BOUNDS.1.x ≤ (0 : ℤ) ∧ (0 : ℤ) ≤ WORLD_BOUNDS.2.x ∧
    WORLD_BOUNDS.1.y ≤ (32 : ℤ) ∧ (32 : ℤ) ≤ WORLD_BOUNDS.2.y ∧
    WORLD_BOUNDS.1.z ≤ (0 : ℤ) ∧ (0 : ℤ) ≤ WORLD_BOUNDS.2.z :=
  frontier_assign_in_world_bounds [] ⟨0, 32, 0⟩ (by decide)

/-- C9 counterexample: for a chunk with 500 entries and the random draw
1/2, the code injects `floor(0.5 * 500 / 250) = 1` vein, not
`floor(500 / 250) = 2` as the claim states. -/
theorem vein_count_not_entries_div_250 :
    veinCount (1 / 2) 500 = 1 ∧ ((500 : ℕ) / 250 : ℤ) = 2 ∧
    veinCount (1 / 2) 500 ≠ ((500 : ℕ) / 250 : ℤ) := by
  have h1 : veinCount (1 / 2) 500 = 1 := by
    have h : veinCount (1 / 2) 500 = ⌊((1 : ℚ) / 2 * ((500 : ℕ) : ℚ) / 250)⌋ :=
      rfl
    rw [h, show ((1 : ℚ) / 2 * ((500 : ℕ) : ℚ) / 250) = 1 by norm_num,
      Int.floor_one]
  refine ⟨h1, by norm_num, by rw [h1]; norm_num⟩

/-- C9 amended: the per-chunk vein count is
`floor(r * entries / 250)` for a fresh uniform draw `r ∈ [0, 1)`; it is
therefore between 0 and `floor(entries / 250)` (and can be smaller than
the latter). -/
theorem vein_count_bound (r : ℚ) (n : ℕ) (h0 : 0 ≤ r) (h1 : r < 1) :
    0 ≤ veinCount r n ∧ veinCount r n ≤ ((n / 250 : ℕ) : ℤ) := by
  have hfl : veinCount r n = ⌊(r * n / 250 : ℚ)⌋ := rfl
  have hle : r * (n : ℚ) / 250 ≤ (n : ℚ) / 250 := by
    have hn : r * (n : ℚ) ≤ (n : ℚ) :=
      mul_le_of_le_one_left (Nat.cast_nonneg n) h1.le
    linarith
  refine ⟨?_, ?_⟩
  · rw [hfl]
    exact Int.floor_nonneg.mpr (by positivity)
  · rw [hfl]
    calc ⌊(r * n / 250 : ℚ)⌋ ≤ ⌊((n : ℚ) / 250)⌋ := Int.floor_le_floor hle
      _ = ((n / 250 : ℕ) : ℤ) := by
        rw [show (250 : ℚ) = ((250 : ℕ) : ℚ) by norm_num]
        exact Rat.floor_natCast_div_natCast n 250

theorem vein_count_bound_witness :
    0 ≤ veinCount (1 / 2) 500 ∧ veinCount (1 / 2) 500 ≤ ((500 / 250 : ℕ) : ℤ) :=
  vein_count_bound (1 / 2) 500 (by norm_num) (by norm_num)

/-- Keys are unchanged by an in-place update of the binding at `k`. -/
theorem mapSet_keys_of_has (m : Mapping) (k : String) (e : MapEntry)
    (h : mapHas m k = true) :
    (mapSet m k e).map (·.1) = m.map (·.1) := by
  unfold mapSet
  rw [if_pos h, List.map_map]
  apply List.map_congr_left
  intro a _
  by_cases hak : a.1 = k <;> simp [hak]

/-- A failed `key in mapping` test means no binding carries that key. -/
theorem mapHas_eq_false_iff (m : Mapping) (k : String) :
    mapHas m k = false ↔ ∀ p ∈ m, p.1 ≠ k := by
  unfold mapHas
  rw [← Bool.not_eq_true, List.any_eq_true]
  constructor
  · intro h p hp hpk
    exact h ⟨p, hp, by simp [hpk]⟩
  · rintro h ⟨p, hp, hpk⟩
    exact h p hp (by simpa using hpk)

/-- Inserting an entry under the canonical key of its own position
preserves mapping well-formedness. -/
theorem mappingWF_mapSet {m : Mapping} {k : String} {e : MapEntry}
    (hWF : MappingWF m) (he : vecToString e.pos = k) :
    MappingWF (mapSet m k e) := by
  obtain ⟨hnd, hkey⟩ := hWF
  rcases hh : mapHas m k with _ | _
  · have hnotin : ∀ p ∈ m, p.1 ≠ k := (mapHas_eq_false_iff m k).mp hh
    unfold mapSet
    rw [if_neg (by simp [hh])]
    constructor
    · rw [List.map_append, List.nodup_append]
      refine ⟨hnd, by simp, ?_⟩
      intro a ha hb
      simp only [List.map_cons, List.map_nil, List.mem_singleton] at hb
      subst hb
      obtain ⟨q, hq, hqa⟩ := List.mem_map.mp ha
      exact hnotin q hq hqa
    · intro p hp
      rcases List.mem_append.mp hp with h1 | h2
      · exact hkey p h1
      · simp only [List.mem_singleton] at h2
        subst h2
        exact he
  · constructor
    · rw [mapSet_keys_of_has m k e hh]
      exact hnd
    · intro p hp
      unfold mapSet at hp
      rw [if_pos hh, List.mem_map] at hp
      obtain ⟨q, hq, rfl⟩ := hp
      by_cases hqk : q.1 = k
      · rw [if_pos hqk]
        exact he
      · rw [if_neg hqk]
        exact hkey q hq

/-- In-place block reclassification preserves mapping well-formedness. -/
theorem mappingWF_mapSetBlock {m : Mapping} (k b : String)
    (hWF : MappingWF m) : MappingWF (mapSetBlock m k b) := by
  obtain ⟨hnd, hkey⟩ := hWF
  constructor
  · have hkeys : (mapSetBlock m k b).map (·.1) = m.map (·.1) := by
      unfold mapSetBlock
      rw [List.map_map]
      apply List.map_congr_left
      intro a _
      by_cases hak : a.1 = k <;> simp [hak]
    rw [hkeys]
    exact hnd
  · intro p hp
    unfold mapSetBlock at hp
    rw [List.mem_map] at hp
    obtain ⟨q, hq, rfl⟩ := hp
    by_cases hqk : q.1 = k
    · simp only [hqk, ite_true]
      rw [← hqk]
      exact hkey q hq
    · simp only [hqk, ite_false]
      exact hkey q hq

/-- Deletion preserves mapping well-formedness. -/
theorem mappingWF_mapDelete {m : Mapping} (k : String)
    (hWF : MappingWF m) : MappingWF (mapDelete m k) := by
  obtain ⟨hnd, hkey⟩ := hWF
  constructor
  · exact (((List.filter_sublist m).map (·.1)).nodup hnd)
  · intro p hp
    exact hkey p (List.mem_of_mem_filter hp)

/-- C2: the mapping's per-position uniqueness invariant. The empty
mapping is well-formed; every mutation step the sources perform
(synthesis insertion, tree placement, smoothing restore/move, block
reclassification, removal) preserves well-formedness; and a well-formed
mapping stores every entry under the canonical string form of its
position, with distinct bindings always holding distinct positions. -/
theorem mapping_position_unique :
    MappingWF ([] : Mapping) ∧
    (∀ m m' : Mapping, MappingWF m → MapStep m m' → MappingWF m') ∧
    (∀ m : Mapping, MappingWF m →
      (List.Pairwise (fun a b : String × MapEntry => a.2.pos ≠ b.2.pos) m ∧
       ∀ k e, mapGet m k = some e → vecToString e.pos = k)) := by
  refine ⟨⟨by simp, fun p hp => absurd hp (List.not_mem_nil p)⟩, ?_, ?_⟩
  · intro m m' hWF hstep
    cases hstep with
    | assign pos file block => exact mappingWF_mapSet hWF rfl
    | setBlock k b => exact mappingWF_mapSetBlock k b hWF
    | remove k => exact mappingWF_mapDelete k hWF
  · intro m hWF
    obtain ⟨hnd, hkey⟩ := hWF
    constructor
    · have hpk : List.Pairwise (fun a b : String × MapEntry => a.1 ≠ b.1) m :=
        List.pairwise_map.mp hnd
      refine hpk.imp_of_mem ?_
      intro a b ha hb hne heq
      exact hne (by rw [← hkey a ha, ← hkey b hb, heq])
    · intro k e hget
      unfold mapGet at hget
      rcases hfind : m.find? (fun p => p.1 = k) with _ | p
      · rw [hfind] at hget
        exact absurd hget (by simp)
      · rw [hfind] at hget
        have hget : p.2 = e := by simpa using hget
        have hk : p.1 = k := by
          have := List.find?_some hfind
          exact of_decide_eq_true this
        have hmem := List.mem_of_find?_eq_some hfind
        rw [← hk, ← hget]
        exact hkey p hmem

/-- C2 witness: the invariant theorem applied across one concrete
synthesis insertion into the empty mapping. -/
theorem mapping_position_unique_witness :
    MappingWF (mapSet [] (vecToString ⟨1, 2, 3⟩) ⟨⟨1, 2, 3⟩, 5, "grass_block"⟩) :=
  mapping_position_unique.2.1 [] _ mapping_position_unique.1
    (MapStep.assign [] ⟨1, 2, 3⟩ 5 "grass_block")

/-- The per-axis incremental update keeps the freshly attained coordinate
inside the (inclusive) interval, only ever widens the interval, and keeps
it nonempty. -/
theorem axisUpdate_spec (lo hi p : ℤ) (hlh : lo ≤ hi) :
    (axisUpdate lo hi p).1 ≤ p ∧ p ≤ (axisUpdate lo hi p).2 ∧
    (axisUpdate lo hi p).1 ≤ lo ∧ hi ≤ (axisUpdate lo hi p).2 ∧
    (axisUpdate lo hi p).1 ≤ (axisUpdate lo hi p).2 := by
  unfold axisUpdate
  split_ifs with h1 h2 <;> dsimp only <;> omega

/-- Every value of `mapSet m k e` is `e` itself or a value of `m`. -/
theorem mapValues_mapSet_cases (m : Mapping) (k : String) (e : MapEntry) :
    ∀ v ∈ mapValues (mapSet m k e), v = e ∨ v ∈ mapValues m := by
  intro v hv
  unfold mapValues mapSet at *
  by_cases hh : mapHas m k = true
  · rw [if_pos hh, List.map_map] at hv
    obtain ⟨q, hq, hqv⟩ := List.mem_map.mp hv
    by_cases hqk : q.1 = k
    · left
      simp only [Function.comp_apply, if_pos hqk] at hqv
      exact hqv.symm
    · right
      simp only [Function.comp_apply, if_neg hqk] at hqv
      exact hqv ▸ List.mem_map.mpr ⟨q, hq, rfl⟩
  · rw [if_neg hh, List.map_append] at hv
    rcases List.mem_append.mp hv with h1 | h2
    · right; exact h1
    · left; simpa using h2

/-- C5 amended: an insertion that runs the incremental terrain-bound
update — the frontier-growth assignment (`worldGenTools.js` lines 367,
369–374) and the snapshot-restore insertion (`main.js` lines 70–80) —
keeps every mapped position inside the (inclusive) terrain bound and
keeps the bound nonempty. Tree placement at group boundaries updates no
bound and is exempt (see the counterexample). -/
theorem insert_update_keeps_terrain_bounds (m : Mapping) (b : TerrainBounds)
    (k : String) (e : MapEntry)
    (hne : b.mins.x ≤ b.maxs.x ∧ b.mins.y ≤ b.maxs.y ∧ b.mins.z ≤ b.maxs.z)
    (hInv : ∀ v ∈ mapValues m, inTerrainBounds b v.pos) :
    (∀ v ∈ mapValues (mapSet m k e),
        inTerrainBounds (updateTerrainBounds b e.pos) v.pos) ∧
    ((updateTerrainBounds b e.pos).mins.x ≤ (updateTerrainBounds b e.pos).maxs.x ∧
     (updateTerrainBounds b e.pos).mins.y ≤ (updateTerrainBounds b e.pos).maxs.y ∧
     (updateTerrainBounds b e.pos).mins.z ≤ (updateTerrainBounds b e.pos).maxs.z) := by
  obtain ⟨hx, hy, hz⟩ := hne
  have sx := axisUpdate_spec b.mins.x b.maxs.x e.pos.x hx
  have sy := axisUpdate_spec b.mins.y b.maxs.y e.pos.y hy
  have sz := axisUpdate_spec b.mins.z b.maxs.z e.pos.z hz
  constructor
  · intro v hv
    rcases mapValues_mapSet_cases m k e v hv with rfl | hold
    · exact ⟨sx.1, sx.2.1, sy.1, sy.2.1, sz.1, sz.2.1⟩
    · have hb := hInv v hold
      unfold inTerrainBounds at hb ⊢
      unfold updateTerrainBounds
      dsimp only
      omega
  · exact ⟨sx.2.2.2.2, sy.2.2.2.2, sz.2.2.2.2⟩

/-- C5 witness: the amended preservation theorem applied to one concrete
frontier insertion. -/
theorem insert_update_keeps_terrain_bounds_witness :
    (∀ v ∈ mapValues (mapSet [] "0,5,0" ⟨⟨0, 5, 0⟩, 4, "grass_block"⟩),
        inTerrainBounds
          (updateTerrainBounds ⟨⟨0, 0, 0⟩, ⟨0, 0, 0⟩⟩ (⟨0, 5, 0⟩ : Vec3)) v.pos) ∧
    ((updateTerrainBounds ⟨⟨0, 0, 0⟩, ⟨0, 0, 0⟩⟩ (⟨0, 5, 0⟩ : Vec3)).mins.x ≤
       (updateTerrainBounds ⟨⟨0, 0, 0⟩, ⟨0, 0, 0⟩⟩ (⟨0, 5, 0⟩ : Vec3)).maxs.x ∧
     (updateTerrainBounds ⟨⟨0, 0, 0⟩, ⟨0, 0, 0⟩⟩ (⟨0, 5, 0⟩ : Vec3)).mins.y ≤
       (updateTerrainBounds ⟨⟨0, 0, 0⟩, ⟨0, 0, 0⟩⟩ (⟨0, 5, 0⟩ : Vec3)).maxs.y ∧
     (updateTerrainBounds ⟨⟨0, 0, 0⟩, ⟨0, 0, 0⟩⟩ (⟨0, 5, 0⟩ : Vec3)).mins.z ≤
       (updateTerrainBounds ⟨⟨0, 0, 0⟩, ⟨0, 0, 0⟩⟩ (⟨0, 5, 0⟩ : Vec3)).maxs.z) :=
  insert_update_keeps_terrain_bounds [] ⟨⟨0, 0, 0⟩, ⟨0, 0, 0⟩⟩ "0,5,0"
    ⟨⟨0, 5, 0⟩, 4, "grass_block"⟩ (by decide)
    (fun v hv => absurd hv (List.not_mem_nil v))

set_option maxRecDepth 100000 in
/-- C5 counterexample: a concrete state whose single mapped position lies
inside the terrain bound; resolving one pending tree there adds the entry
`(0, 11, 0)` (an oak log) while the bound is not updated, and that
position lies outside the bound — refuting the claim that tree placement
leaves every mapped position inside the terrain bound. -/
theorem tree_placement_escapes_terrain_bound :
    (∀ v ∈ mapValues [("0,10,0", ⟨⟨0, 10, 0⟩, 1, "grass_block"⟩)],
        inTerrainBounds ⟨⟨0, 0, 0⟩, ⟨0, 10, 0⟩⟩ v.pos) ∧
    (treeResolveAt [("0,10,0", ⟨⟨0, 10, 0⟩, 1, "grass_block"⟩)] [] ⟨0, 10, 0⟩
        (List.range 62)).map (fun st => mapGet st.1 "0,11,0") =
      some (some ⟨⟨0, 11, 0⟩, 61, "oak_log"⟩) ∧
    ¬ inTerrainBounds ⟨⟨0, 0, 0⟩, ⟨0, 10, 0⟩⟩ ⟨0, 11, 0⟩ := by
  refine ⟨by decide, by decide, by decide⟩

/-- Appending a fresh binding does not disturb existing lookups. -/
theorem mapGet_mapSet_of_not_has (m : Mapping) (kn : String) (en : MapEntry)
    (hh : mapHas m kn = false) (k : String) (e : MapEntry)
    (hget : mapGet m k = some e) : mapGet (mapSet m kn en) k = some e := by
  unfold mapSet
  rw [if_neg (by simp [hh])]
  unfold mapGet at hget ⊢
  rcases hfind : m.find? (fun p => p.1 = k) with _ | p
  · rw [hfind] at hget
    exact absurd hget (by simp)
  · rw [List.find?_append, hfind]
    rw [hfind] at hget
    exact hget

/-- One tree-placement step never disturbs an existing binding. -/
theorem treePlaceStep_preserves (st : Mapping × List ℕ × List ℕ)
    (pb : Vec3 × String) (k : String) (e : MapEntry)
    (hget : mapGet st.1 k = some e) :
    mapGet (treePlaceStep st pb).1 k = some e := by
  unfold treePlaceStep
  rcases hh : mapHas st.1 (vecToString pb.1) with _ | _
  · simp only [hh, Bool.false_eq_true, if_false]
    exact mapGet_mapSet_of_not_has st.1 (vecToString pb.1) _ hh k e hget
  · simp only [hh, if_true]
    exact hget

/-- One tree-placement step only ever appends to the unallocated list. -/
theorem treePlaceStep_fileList (st : Mapping × List ℕ × List ℕ)
    (pb : Vec3 × String) :
    ∃ tl, (treePlaceStep st pb).2.1 = st.2.1 ++ tl := by
  unfold treePlaceStep
  rcases hh : mapHas st.1 (vecToString pb.1) with _ | _
  · exact ⟨[], by simp [hh]⟩
  · exact ⟨[st.2.2.getLastD 0], by simp [hh]⟩

/-- Folding tree blocks preserves existing bindings and only appends to
the unallocated list. -/
theorem treeFold_spec (l : List (Vec3 × String)) :
    ∀ st : Mapping × List ℕ × List ℕ,
      (∀ k e, mapGet st.1 k = some e →
        mapGet (l.foldl treePlaceStep st).1 k = some e) ∧
      ∃ tl, (l.foldl treePlaceStep st).2.1 = st.2.1 ++ tl := by
  induction l with
  | nil => exact fun st => ⟨fun k e h => h, ⟨[], by simp⟩⟩
  | cons pb rest ih =>
    intro st
    rw [List.foldl_cons]
    refine ⟨?_, ?_⟩
    · intro k e hget
      exact (ih (treePlaceStep st pb)).1 k e
        (treePlaceStep_preserves st pb k e hget)
    · obtain ⟨tl1, h1⟩ := treePlaceStep_fileList st pb
      obtain ⟨tl2, h2⟩ := (ih (treePlaceStep st pb)).2
      exact ⟨tl1 ++ tl2, by rw [h2, h1, List.append_assoc]⟩

/-- C8 amended: during tree resolution, a block proposed at an
already-occupied position leaves the mapping untouched and appends the
popped file handle to the END (tail) of the unallocated file list (JS
`fileList.push`), not to its head; across a whole tree resolution,
existing bindings are never overwritten and the unallocated list is only
ever extended at the tail. -/
theorem tree_collision_appends_to_tail :
    (∀ (st : Mapping × List ℕ × List ℕ) (pb : Vec3 × String),
      mapHas st.1 (vecToString pb.1) = true →
      treePlaceStep st pb =
        (st.1, st.2.1 ++ [st.2.2.getLastD 0], st.2.2.dropLast)) ∧
    (∀ (m : Mapping) (fl files : List ℕ) (pos : Vec3),
      (∀ k e, mapGet m k = some e →
        mapGet (treeResolve m fl pos files).1 k = some e) ∧
      ∃ tl, (treeResolve m fl pos files).2.1 = fl ++ tl) := by
  constructor
  · intro st pb hh
    unfold treePlaceStep
    rw [if_pos hh]
  · intro m fl files pos
    unfold treeResolve
    exact treeFold_spec (forTreeBlocks pos) (m, fl, files)

/-- C8 witness: the amended theorem applied to a concrete tree whose
second trunk block collides with an existing entry. -/
theorem tree_collision_appends_to_tail_witness :
    mapGet (treeResolve [("0,12,0", ⟨⟨0, 12, 0⟩, 77, "grass_block"⟩)] [99]
        ⟨0, 11, 0⟩ (List.range 62)).1 "0,12,0" =
      some ⟨⟨0, 12, 0⟩, 77, "grass_block"⟩ ∧
    ∃ tl, (treeResolve [("0,12,0", ⟨⟨0, 12, 0⟩, 77, "grass_block"⟩)] [99]
        ⟨0, 11, 0⟩ (List.range 62)).2.1 = [99] ++ tl :=
  ⟨(tree_collision_appends_to_tail.2 [("0,12,0", ⟨⟨0, 12, 0⟩, 77, "grass_block"⟩)]
      [99] (List.range 62) ⟨0, 11, 0⟩).1 "0,12,0" ⟨⟨0, 12, 0⟩, 77, "grass_block"⟩
      (by decide),
   (tree_collision_appends_to_tail.2 [("0,12,0", ⟨⟨0, 12, 0⟩, 77, "grass_block"⟩)]
      [99] (List.range 62) ⟨0, 11, 0⟩).2⟩

set_option maxRecDepth 100000 in
/-- C8 counterexample: resolving a tree based at (0, 11, 0) against a
mapping that already holds (0, 12, 0) pops file 60 for the colliding
trunk block and appends it to the tail of the unallocated list `[99]`,
producing `[99, 60]` — the attempted handle is NOT at the head. -/
theorem tree_collision_file_not_at_head :
    (treeResolve [("0,12,0", ⟨⟨0, 12, 0⟩, 77, "grass_block"⟩)] [99]
        ⟨0, 11, 0⟩ (List.range 62)).2.1 = [99, 60] ∧
    (treeResolve [("0,12,0", ⟨⟨0, 12, 0⟩, 77, "grass_block"⟩)] [99]
        ⟨0, 11, 0⟩ (List.range 62)).2.1.head? ≠ some 60 := by
  refine ⟨by decide, by decide⟩

/-- C10: under a region restriction that matches no mapping entry —
including an entirely empty mapping — `forMappedChunks` still invokes its
callback exactly once, with an empty entries list and undefined (`none`)
chunk coordinates, hence NaN (`none`) chunk bounds, before terminating. -/
theorem forMappedChunks_empty_region (m : Mapping) (rx rz : ℤ)
    (h : ∀ p ∈ m, regionMatch (some rx) (some rz) p.2 = false) :
    forMappedChunks m (some rx) (some rz) =
      [{ entries := [], cx := none, cz := none, bounds := none }] := by
  unfold forMappedChunks
  have hvalid : m.filter (fun p => regionMatch (some rx) (some rz) p.2) = [] :=
    List.filter_eq_nil_iff.mpr (by intro a ha; simp [h a ha])
  rw [hvalid]
  have hiter : iterateMappedChunks m [] =
      ({ entries := [], cx := none, cz := none, bounds := none }, [], 0) := by
    unfold iterateMappedChunks
    have hfind : m.find? (fun p => ([] : List String).contains p.1) = none :=
      List.find?_eq_none.mpr (by intro x hx; simp)
    rw [hfind]
  show forMappedChunksRun m [] (m.length + 1) = _
  simp only [forMappedChunksRun, hiter]
  norm_num

/-- C10 witness: a one-entry mapping whose position (1000, 5, 0) lies in
region (1, 0), iterated under the restriction to region (0, 0). -/
theorem forMappedChunks_empty_region_witness :
    forMappedChunks [("1000,5,0", ⟨⟨1000, 5, 0⟩, 3, "grass_block"⟩)]
        (some 0) (some 0) =
      [{ entries := [], cx := none, cz := none, bounds := none }] :=
  forMappedChunks_empty_region [("1000,5,0", ⟨⟨1000, 5, 0⟩, 3, "grass_block"⟩)]
    0 0 (by decide)

/-- `Rat.floor` agrees with the `FloorRing` floor on `ℚ`. -/
theorem rat_floor_eq_int_floor (q : ℚ) : Rat.floor q = ⌊q⌋ := rfl

/-- One-step unfolding of the pond-fill loop. -/
theorem pondFillRun_succ (trees : List PendingTree) (ρ : ℕ → ℚ) (fuel : ℕ)
    (m : Mapping) (queue : List Vec3) (i iters : ℕ) :
    pondFillRun trees ρ (fuel + 1) m queue i iters =
      if Rat.floor (ρ (pondBody trees ρ m queue i).2.2 * 2000) ≠ 0 ∧
          (pondBody trees ρ m queue i).2.1 ≠ [] then
        pondFillRun trees ρ fuel (pondBody trees ρ m queue i).1
          (pondBody trees ρ m queue i).2.1
          ((pondBody trees ρ m queue i).2.2 + 1) (iters + 1)
      else
        some ⟨(pondBody trees ρ m queue i).1, (pondBody trees ρ m queue i).2.1,
          (pondBody trees ρ m queue i).2.2 + 1,
          Rat.floor (ρ (pondBody trees ρ m queue i).2.2 * 2000), iters + 1⟩ :=
  rfl

/-- C7 amended: whenever the pond flood-fill loop exits normally, it does
so exactly because, after the body ran, the fresh guard draw
`Math.floor(rand * 2000)` was zero or the node queue was empty. The stop
is a per-iteration 1-in-2000 random draw (expected ≈2000 iterations),
not a deterministic iteration cap: the loop may also stop on the very
first guard check while the queue is still nonempty. -/
theorem pond_fill_exit_condition (trees : List PendingTree) (ρ : ℕ → ℚ)
    (fuel : ℕ) (m : Mapping) (queue : List Vec3) (i iters : ℕ)
    (res : PondResult)
    (h : pondFillRun trees ρ fuel m queue i iters = some res) :
    res.stopDraw = 0 ∨ res.queue = [] := by
  induction fuel generalizing m queue i iters with
  | zero => exact absurd h (by simp [pondFillRun])
  | succ n ih =>
    rw [pondFillRun_succ] at h
    by_cases hc : Rat.floor (ρ (pondBody trees ρ m queue i).2.2 * 2000) ≠ 0 ∧
        (pondBody trees ρ m queue i).2.1 ≠ []
    · rw [if_pos hc] at h
      exact ih _ _ _ _ h
    · rw [if_neg hc] at h
      have hres := (Option.some.inj h).symm
      rw [not_and_or, not_not, not_not] at hc
      cases hc with
      | inl h0 => left; rw [hres]; exact h0
      | inr hq => right; rw [hres]; exact hq

/-- C7 witness: the exit-condition theorem applied to a run from an
empty queue, which stops after one body execution. -/
theorem pond_fill_exit_condition_witness :
    (⟨[], [], 1, 0, 1⟩ : PondResult).stopDraw = 0 ∨
    (⟨[], [], 1, 0, 1⟩ : PondResult).queue = [] :=
  pond_fill_exit_condition [] (fun _ => 0) 1 [] [] 0 0 ⟨[], [], 1, 0, 1⟩ (by
    rw [show (1 : ℕ) = 0 + 1 from rfl, pondFillRun_succ]
    have hb : pondBody [] (fun _ => (0 : ℚ)) [] [] 0 = ([], [], 0) := rfl
    rw [hb]
    have hd : Rat.floor ((fun _ : ℕ => (0 : ℚ)) 0 * 2000) = 0 := by
      rw [rat_floor_eq_int_floor]
      norm_num
    rw [hd]
    norm_num)

/-- C7 counterexample: a pond fill over a plus-shaped patch of five
ground entries converts the center to water and pushes its four
horizontal neighbors, then the very first loop-guard draw is zero
(`Math.floor(rand * 2000) === 0`), so the loop stops after ONE iteration
with a four-node queue — neither an empty queue nor any "~2000 iteration
cap" caused the exit, refuting the claimed termination condition. -/
theorem pond_fill_stops_with_nonempty_queue :
    pondFillRun [] (fun n => if n < 6 then (1 : ℚ) / 2 else 0) 1
      [("0,10,0", ⟨⟨0, 10, 0⟩, 0, "grass_block"⟩),
       ("1,10,0", ⟨⟨1, 10, 0⟩, 1, "grass_block"⟩),
       ("-1,10,0", ⟨⟨-1, 10, 0⟩, 2, "grass_block"⟩),
       ("0,10,1", ⟨⟨0, 10, 1⟩, 3, "grass_block"⟩),
       ("0,10,-1", ⟨⟨0, 10, -1⟩, 4, "grass_block"⟩)]
      [⟨0, 10, 0⟩] 0 0 =
      some ⟨mapSetBlock
              [("0,10,0", ⟨⟨0, 10, 0⟩, 0, "grass_block"⟩),
               ("1,10,0", ⟨⟨1, 10, 0⟩, 1, "grass_block"⟩),
               ("-1,10,0", ⟨⟨-1, 10, 0⟩, 2, "grass_block"⟩),
               ("0,10,1", ⟨⟨0, 10, 1⟩, 3, "grass_block"⟩),
               ("0,10,-1", ⟨⟨0, 10, -1⟩, 4, "grass_block"⟩)]
              "0,10,0" "water",
            [⟨1, 10, 0⟩, ⟨-1, 10, 0⟩, ⟨0, 10, 1⟩, ⟨0, 10, -1⟩], 7, 0, 1⟩ ∧
    ([⟨1, 10, 0⟩, ⟨-1, 10, 0⟩, ⟨0, 10, 1⟩, ⟨0, 10, -1⟩] : List Vec3) ≠ [] := by
  refine ⟨?_, by simp⟩
  rw [show (1 : ℕ) = 0 + 1 from rfl, pondFillRun_succ]
  have hkey : vecToString (⟨0, 10, 0⟩ : Vec3) = "0,10,0" := by decide
  have hbody : pondBody [] (fun n => if n < 6 then (1 : ℚ) / 2 else 0)
      [("0,10,0", ⟨⟨0, 10, 0⟩, 0, "grass_block"⟩),
       ("1,10,0", ⟨⟨1, 10, 0⟩, 1, "grass_block"⟩),
       ("-1,10,0", ⟨⟨-1, 10, 0⟩, 2, "grass_block"⟩),
       ("0,10,1", ⟨⟨0, 10, 1⟩, 3, "grass_block"⟩),
       ("0,10,-1", ⟨⟨0, 10, -1⟩, 4, "grass_block"⟩)]
      [⟨0, 10, 0⟩] 0 =
      (mapSetBlock
        [("0,10,0", ⟨⟨0, 10, 0⟩, 0, "grass_block"⟩),
         ("1,10,0", ⟨⟨1, 10, 0⟩, 1, "grass_block"⟩),
         ("-1,10,0", ⟨⟨-1, 10, 0⟩, 2, "grass_block"⟩),
         ("0,10,1", ⟨⟨0, 10, 1⟩, 3, "grass_block"⟩),
         ("0,10,-1", ⟨⟨0, 10, -1⟩, 4, "grass_block"⟩)]
        "0,10,0" "water",
       [⟨1, 10, 0⟩, ⟨-1, 10, 0⟩, ⟨0, 10, 1⟩, ⟨0, 10, -1⟩], 6) := by
    dsimp only [pondBody]
    rw [show List.range 4 = [0, 1, 2, 3] from rfl]
    norm_num +decide [hkey, List.foldl_cons, List.foldl_nil, Vec3.shifted,
      Vec3.add]
  rw [hbody]
  simp only [rat_floor_eq_int_floor]
  norm_num

/-- One-step unfolding of the `regionToBlocks` slot loop. -/
theorem regionToBlocksGo_cons (bounds : Vec3 × Vec3) (rx rz : ℤ)
    (r : RegionBuf) (eh : Option ℕ) (i : ℕ) (rest : List ℕ)
    (fh : Option ℕ) (v : Volume) :
    regionToBlocksGo bounds rx rz r eh (i :: rest) fh v =
      (if chunkInBounds bounds (chunkX rx i) (chunkZ rz i) then
        if fh = none ∧ eh = some (r i).hashVal then (none, v)
        else
          match (r i).sections with
          | none => (none, v)
          | some secs =>
            regionToBlocksGo bounds rx rz r eh rest
              (some (fh.getD (r i).hashVal))
              (decodeSections bounds (chunkX rx i) (chunkZ rz i) secs v)
      else regionToBlocksGo bounds rx rz r eh rest fh v) := rfl

/-- Skipping a run of out-of-bounds slots, the first in-bounds slot with
a hash equal to `expectHash` yields the `null` sentinel and an untouched
volume. -/
theorem regionToBlocksGo_short (bounds : Vec3 × Vec3) (rx rz : ℤ)
    (r : RegionBuf) (i : ℕ) (l₂ : List ℕ) (v : Volume)
    (hin : chunkInBounds bounds (chunkX rx i) (chunkZ rz i)) :
    ∀ l₁ : List ℕ,
      (∀ j ∈ l₁, ¬ chunkInBounds bounds (chunkX rx j) (chunkZ rz j)) →
      regionToBlocksGo bounds rx rz r (some ((r i).hashVal)) (l₁ ++ i :: l₂)
        none v = (none, v) := by
  intro l₁
  induction l₁ with
  | nil =>
    intro _
    rw [List.nil_append, regionToBlocksGo_cons, if_pos hin, if_pos ⟨rfl, rfl⟩]
  | cons j l₁ ih =>
    intro h
    rw [List.cons_append, regionToBlocksGo_cons,
      if_neg (h j (List.mem_cons_self j _))]
    exact ih (fun j' hj' => h j' (List.mem_cons_of_mem _ hj'))

/-- C3: when `regionToBlocks` is called with an expected hash equal to
the hash of the first intersecting chunk's compressed bytes, it returns
the `null` ("unchanged") sentinel and the output volume is completely
unmutated — decompression of every chunk is skipped. -/
theorem regionToBlocks_hash_short_circuit (r : RegionBuf) (v : Volume)
    (rx rz : ℤ) (bounds : Vec3 × Vec3) (i : ℕ) (hi : i < 1024)
    (hin : chunkInBounds bounds (chunkX rx i) (chunkZ rz i))
    (hfirst : ∀ j < i, ¬ chunkInBounds bounds (chunkX rx j) (chunkZ rz j)) :
    regionToBlocks r v rx rz bounds (some ((r i).hashVal)) = (none, v) := by
  unfold regionToBlocks
  obtain ⟨k, hk⟩ : ∃ k, 1024 = i + (k + 1) := ⟨1023 - i, by omega⟩
  rw [hk, List.range_add, List.range_succ_eq_map]
  have hmap : List.map (fun x => i + x) (0 :: List.map Nat.succ (List.range k)) =
      i :: List.map (fun x => i + Nat.succ x) (List.range k) := by
    simp
  rw [hmap]
  exact regionToBlocksGo_short bounds rx rz r i _ v hin (List.range i)
    (fun j hj => hfirst j (List.mem_range.mp hj))

/-- C3 witness: the short-circuit theorem applied to a concrete region
whose every slot carries hash 42, with single-cell bounds selecting
slot 0. -/
theorem regionToBlocks_hash_short_circuit_witness :
    regionToBlocks (fun _ => ⟨0, 42, none⟩) (fun _ _ _ => "air") 0 0
      (⟨0, 0, 0⟩, ⟨1, 1, 1⟩) (some 42) = (none, fun _ _ _ => "air") :=
  regionToBlocks_hash_short_circuit (fun _ => ⟨0, 42, none⟩)
    (fun _ _ _ => "air") 0 0 (⟨0, 0, 0⟩, ⟨1, 1, 1⟩) 0 (by norm_num)
    (by decide) (fun j hj => absurd hj (Nat.not_lt_zero j))

/-- The slot fold of `blocksToRegion` over a duplicate-free index list:
each listed slot is processed exactly once from its original content,
unlisted slots are untouched, warnings accumulate. -/
theorem slotFold_spec (slot : ℕ → McChunk → McChunk × List EncWarning) :
    ∀ l : List ℕ, l.Nodup →
    ∀ acc : RegionBuf × List EncWarning,
      (∀ j, (l.foldl (fun (a : RegionBuf × List EncWarning) i =>
          (fun j' => if j' = i then (slot i (a.1 i)).1 else a.1 j',
           a.2 ++ (slot i (a.1 i)).2)) acc).1 j =
        if j ∈ l then (slot j (acc.1 j)).1 else acc.1 j) ∧
      (∃ tl, (l.foldl (fun (a : RegionBuf × List EncWarning) i =>
          (fun j' => if j' = i then (slot i (a.1 i)).1 else a.1 j',
           a.2 ++ (slot i (a.1 i)).2)) acc).2 = acc.2 ++ tl) ∧
      (∀ i ∈ l, ∀ w ∈ (slot i (acc.1 i)).2,
        w ∈ (l.foldl (fun (a : RegionBuf × List EncWarning) i =>
          (fun j' => if j' = i then (slot i (a.1 i)).1 else a.1 j',
           a.2 ++ (slot i (a.1 i)).2)) acc).2) := by
  intro l
  induction l with
  | nil =>
    intro _ acc
    refine ⟨fun j => by simp, ⟨[], by simp⟩, fun i hi => absurd hi (by simp)⟩
  | cons i l ih =>
    intro hnd acc
    have hninl : i ∉ l := (List.nodup_cons.mp hnd).1
    have hndl : l.Nodup := (List.nodup_cons.mp hnd).2
    set acc' : RegionBuf × List EncWarning :=
      (fun j' => if j' = i then (slot i (acc.1 i)).1 else acc.1 j',
       acc.2 ++ (slot i (acc.1 i)).2) with hacc'
    obtain ⟨ih1, ⟨tl, ihtl⟩, ih3⟩ := ih hndl acc'
    refine ⟨?_, ?_, ?_⟩
    · intro j
      rw [List.foldl_cons]
      rw [ih1 j]
      by_cases hjl : j ∈ l
      · have hji : j ≠ i := fun h => hninl (h ▸ hjl)
        rw [if_pos hjl, if_pos (List.mem_cons_of_mem i hjl)]
        have : acc'.1 j = acc.1 j := by
          rw [hacc']
          exact if_neg hji
        rw [this]
      · rw [if_neg hjl]
        by_cases hji : j = i
        · subst hji
          rw [if_pos (List.mem_cons_self j l)]
          rw [hacc']
          simp
        · rw [if_neg (by simp [hji, hjl]), hacc']
          exact if_neg hji
    · rw [List.foldl_cons, ihtl, hacc']
      exact ⟨(slot i (acc.1 i)).2 ++ tl, by simp⟩
    · intro i' hi' w hw
      rw [List.foldl_cons]
      rcases List.mem_cons.mp hi' with rfl | hi'l
      · rw [ihtl]
        refine List.mem_append.mpr (Or.inl ?_)
        rw [hacc']
        exact List.mem_append.mpr (Or.inr hw)
      · have hne : i' ≠ i := fun h => hninl (h ▸ hi'l)
        refine ih3 i' hi'l w ?_
        have : acc'.1 i' = acc.1 i' := by
          rw [hacc']
          exact if_neg hne
        rw [this]
        exact hw

/-- C4: when a chunk's re-encoded payload plus its 5-byte header exceeds
one 4096-byte sector, `blocksToRegion` logs an oversize warning for that
chunk, leaves the chunk's prior content untouched, still processes every
other slot from its own original content, and returns normally (the
model is a total function; the call does not fail). -/
theorem blocksToRegion_oversized_chunk
    (encSize encHash : ℕ → List McSection → ℕ) (v : Volume) (r : RegionBuf)
    (rx rz : ℤ) (bounds : Vec3 × Vec3) (i : ℕ) (hi : i < 1024)
    (secs : List McSection)
    (hin : chunkInBounds bounds (chunkX rx i) (chunkZ rz i))
    (hsec : (r i).sections = some secs)
    (hbig : encSize (r i).rest
      (secs.map (encodeSection v bounds (chunkX rx i) (chunkZ rz i))) + 5 >
        4096) :
    (blocksToRegion encSize encHash v r rx rz bounds).1 i = r i ∧
    EncWarning.oversize (chunkX rx i) (chunkZ rz i) ∈
      (blocksToRegion encSize encHash v r rx rz bounds).2 ∧
    (∀ j, (blocksToRegion encSize encHash v r rx rz bounds).1 j =
      if j < 1024 then
        (blocksToRegionSlot encSize encHash v bounds rx rz j (r j)).1
      else r j) := by
  obtain ⟨h1, _, h3⟩ := slotFold_spec
    (blocksToRegionSlot encSize encHash v bounds rx rz)
    (List.range 1024) (List.nodup_range 1024) (r, [])
  have hslot : blocksToRegionSlot encSize encHash v bounds rx rz i (r i) =
      (r i, [EncWarning.oversize (chunkX rx i) (chunkZ rz i)]) := by
    unfold blocksToRegionSlot
    rw [if_pos hin, hsec]
    simp only [if_pos hbig]
  unfold blocksToRegion
  refine ⟨?_, ?_, ?_⟩
  · have := h1 i
    rw [if_pos (List.mem_range.mpr hi), hslot] at this
    exact this
  · have := h3 i (List.mem_range.mpr hi)
      (EncWarning.oversize (chunkX rx i) (chunkZ rz i))
      (by rw [hslot]; exact List.mem_singleton.mpr rfl)
    exact this
  · intro j
    have := h1 j
    by_cases hj : j < 1024
    · rw [if_pos (List.mem_range.mpr hj)] at this
      rw [if_pos hj]
      exact this
    · rw [if_neg (fun h => hj (List.mem_range.mp h))] at this
      rw [if_neg hj]
      exact this

set_option maxRecDepth 100000 in
/-- C4 witness: the oversize theorem applied to a region whose every
chunk re-encodes to 5000 bytes (always too large for one sector). -/
theorem blocksToRegion_oversized_chunk_witness :
    (blocksToRegion (fun _ _ => 5000) (fun _ _ => 0) (fun _ _ _ => "air")
      (fun _ => ⟨0, 0, some []⟩) 0 0 (⟨0, 0, 0⟩, ⟨1, 1, 1⟩)).1 0 =
      (⟨0, 0, some []⟩ : McChunk) ∧
    EncWarning.oversize (chunkX 0 0) (chunkZ 0 0) ∈
      (blocksToRegion (fun _ _ => 5000) (fun _ _ => 0) (fun _ _ _ => "air")
        (fun _ => ⟨0, 0, some []⟩) 0 0 (⟨0, 0, 0⟩, ⟨1, 1, 1⟩)).2 ∧
    (∀ j, (blocksToRegion (fun _ _ => 5000) (fun _ _ => 0)
        (fun _ _ _ => "air") (fun _ => ⟨0, 0, some []⟩) 0 0
        (⟨0, 0, 0⟩, ⟨1, 1, 1⟩)).1 j =
      if j < 1024 then
        (blocksToRegionSlot (fun _ _ => 5000) (fun _ _ => 0)
          (fun _ _ _ => "air") (⟨0, 0, 0⟩, ⟨1, 1, 1⟩) 0 0 j
          (⟨0, 0, some []⟩ : McChunk)).1
      else (⟨0, 0, some []⟩ : McChunk)) :=
  blocksToRegion_oversized_chunk (fun _ _ => 5000) (fun _ _ => 0)
    (fun _ _ _ => "air") (fun _ => ⟨0, 0, some []⟩) 0 0
    (⟨0, 0, 0⟩, ⟨1, 1, 1⟩) 0 (by norm_num) [] (by decide) rfl (by norm_num)

/-- Rebuilding a string from its characters is the identity. -/
theorem mk_data (s : String) : String.mk s.data = s := by
  cases s
  rfl

/-- `dropWhile` is the identity on lists none of whose members satisfy
the predicate. -/
theorem dropWhile_of_forall_not {α : Type} (p : α → Bool) (l : List α)
    (h : ∀ a ∈ l, ¬ p a = true) : l.dropWhile p = l := by
  cases l with
  | nil => rfl
  | cons a l =>
    rw [List.dropWhile_cons]
    rw [if_neg (h a (List.mem_cons_self a l))]

/-- `jsTrim` is the identity on whitespace-free strings. -/
theorem jsTrim_of_no_ws (s : String)
    (h : ∀ ch ∈ s.data, ¬ ch.isWhitespace = true) : jsTrim s = s := by
  unfold jsTrim
  rw [dropWhile_of_forall_not _ _ h,
    dropWhile_of_forall_not _ _ (fun ch hch => h ch (List.mem_reverse.mp hch)),
    List.reverse_reverse, mk_data]

/-- Splitting a separator-free character list yields one piece. -/
theorem splitCharAux_not_mem (c : Char) (l : List Char) (h : c ∉ l) :
    ∀ acc, splitCharAux c l acc = [acc.reverse ++ l] := by
  induction l with
  | nil => intro acc; simp [splitCharAux]
  | cons d rest ih =>
    intro acc
    have hdc : ¬ d = c := fun hdc => h (hdc ▸ List.mem_cons_self d rest)
    rw [splitCharAux, if_neg hdc,
      ih (fun hm => h (List.mem_cons_of_mem d hm)) (d :: acc)]
    simp

/-- Splitting at the first separator occurrence. -/
theorem splitCharAux_first (c : Char) (l₂ : List Char) :
    ∀ l₁ acc, c ∉ l₁ →
      splitCharAux c (l₁ ++ c :: l₂) acc =
        (acc.reverse ++ l₁) :: splitCharAux c l₂ [] := by
  intro l₁
  induction l₁ with
  | nil => intro acc _; simp [splitCharAux]
  | cons d rest ih =>
    intro acc h
    have hdc : ¬ d = c := fun hdc => h (hdc ▸ List.mem_cons_self d rest)
    rw [List.cons_append, splitCharAux, if_neg hdc,
      ih (d :: acc) (fun hm => h (List.mem_cons_of_mem d hm))]
    simp

/-- Splitting a separator-joined list of separator-free pieces recovers
the pieces. -/
theorem splitCharAux_joinSep (c : Char) :
    ∀ ps : List (List Char), ps ≠ [] → (∀ p ∈ ps, c ∉ p) →
      splitCharAux c (joinSep c ps) [] = ps := by
  intro ps
  induction ps with
  | nil => intro h; exact absurd rfl h
  | cons p rest ih =>
    intro _ h
    cases rest with
    | nil =>
      show splitCharAux c (joinSep c [p]) [] = [p]
      rw [joinSep, splitCharAux_not_mem c p (h p (List.mem_cons_self p _)) []]
      rfl
    | cons q rest' =>
      show splitCharAux c (p ++ c :: joinSep c (q :: rest')) [] = _
      rw [splitCharAux_first c _ p [] (h p (List.mem_cons_self p _)),
        ih (by simp) (fun p' hp' => h p' (List.mem_cons_of_mem p hp'))]
      rfl

/-- `breakAtChar` on a separator-free list finds nothing. -/
theorem breakAtChar_not_mem (c : Char) (l : List Char) (h : c ∉ l) :
    breakAtChar c l = (l, none) := by
  induction l with
  | nil => rfl
  | cons d rest ih =>
    have hdc : ¬ d = c := fun hdc => h (hdc ▸ List.mem_cons_self d rest)
    rw [breakAtChar, if_neg hdc, ih (fun hm => h (List.mem_cons_of_mem d hm))]

/-- `breakAtChar` splits at the first separator occurrence. -/
theorem breakAtChar_first (c : Char) (l₂ : List Char) :
    ∀ l₁, c ∉ l₁ → breakAtChar c (l₁ ++ c :: l₂) = (l₁, some l₂) := by
  intro l₁
  induction l₁ with
  | nil => intro _; simp [breakAtChar]
  | cons d rest ih =>
    intro h
    have hdc : ¬ d = c := fun hdc => h (hdc ▸ List.mem_cons_self d rest)
    rw [List.cons_append, breakAtChar, if_neg hdc,
      ih (fun hm => h (List.mem_cons_of_mem d hm))]

/-- A structural-character-free string omits each structural character. -/
theorem valueOK_not_mem (s : String) (h : valueOK s = true) (c : Char)
    (hc : structuralChar c = true) : c ∉ s.data := by
  intro hm
  rw [valueOK, List.all_eq_true] at h
  have hcs := h c hm
  rw [hc] at hcs
  simp at hcs

/-- A structural-character-free string is whitespace-free. -/
theorem valueOK_no_ws (s : String) (h : valueOK s = true) :
    ∀ ch ∈ s.data, ¬ ch.isWhitespace = true := by
  intro ch hm hws
  rw [valueOK, List.all_eq_true] at h
  have hcs := h ch hm
  rw [structuralChar] at hcs
  simp [hws] at hcs

/-- A well-formed name or key is nonempty. -/
theorem partOK_ne (s : String) (h : partOK s = true) : s ≠ "" := by
  rw [partOK, Bool.and_eq_true] at h
  exact of_decide_eq_true h.1

/-- A well-formed name or key is structural-character-free. -/
theorem partOK_valueOK (s : String) (h : partOK s = true) :
    valueOK s = true := by
  rw [partOK, Bool.and_eq_true] at h
  exact h.2

/-- `normalizeBlockName` is the identity on colon-free names. -/
theorem normalizeBlockName_plain (n : String) (h : ':' ∉ n.data) :
    normalizeBlockName n = n := by
  by_cases hne : n = ""
  · subst hne; rfl
  · unfold normalizeBlockName splitChar
    rw [if_neg hne, splitCharAux_not_mem ':' n.data h []]
    simp [mk_data]

/-- `normalizeBlockName` strips the `minecraft:` namespace. -/
theorem normalizeBlockName_mc (n : String) (h : ':' ∉ n.data) :
    normalizeBlockName ("minecraft:" ++ n) = n := by
  have hdata : ("minecraft:" ++ n).data = "minecraft".data ++ ':' :: n.data := by
    rw [String.data_append]; rfl
  have hne : ¬ ("minecraft:" ++ n) = "" := by
    intro heq
    have hd := congrArg String.data heq
    rw [hdata, show ("" : String).data = [] from rfl] at hd
    simp at hd
  unfold normalizeBlockName splitChar
  rw [if_neg hne, hdata,
    splitCharAux_first ':' n.data "minecraft".data [] (by decide),
    splitCharAux_not_mem ':' n.data h []]
  simp [mk_data]

/-- Character data of a `key=value` pair. -/
theorem pair_data (k v : String) :
    (k ++ "=" ++ v).data = k.data ++ '=' :: v.data := by
  rw [String.data_append, String.data_append]
  simp

/-- Assigning a fresh key appends it to the property object. -/
theorem jsObjSet_fresh (props : List (String × String)) (k v : String)
    (h : ∀ q ∈ props, ¬ q.1 = k) : jsObjSet props k v = props ++ [(k, v)] := by
  unfold jsObjSet
  rw [if_neg]
  rw [List.any_eq_true]
  rintro ⟨q, hq, hqk⟩
  exact h q hq (of_decide_eq_true hqk)

/-- Joining a nonempty list of pieces whose head is nonempty gives a
nonempty character list. -/
theorem joinSep_ne_nil (c : Char) (p : List Char) (rest : List (List Char))
    (hp : p ≠ []) : joinSep c (p :: rest) ≠ [] := by
  cases rest with
  | nil => simpa [joinSep] using hp
  | cons q rest' => simp [joinSep]

/-- Splitting a separator-free `key=value` pair at `=`. -/
theorem splitChar_pair (k v : String) (hk : '=' ∉ k.data)
    (hv : '=' ∉ v.data) : splitChar '=' (k ++ "=" ++ v) = [k, v] := by
  unfold splitChar
  rw [pair_data, splitCharAux_first '=' v.data k.data [] hk,
    splitCharAux_not_mem '=' v.data hv []]
  simp [mk_data]

/-- The `parsePropsPairs` fold over canonical `key=value` pairs with
well-formed distinct keys extends the accumulated object by the pairs in
order. -/
theorem parsePropsPairs_go (ps : List (String × String)) :
    ∀ acc : List (String × String),
      (∀ p ∈ ps, partOK p.1 = true ∧ valueOK p.2 = true) →
      (∀ p ∈ ps, ∀ q ∈ acc, ¬ q.1 = p.1) →
      (ps.map (·.1)).Nodup →
      (ps.map (fun p => p.1 ++ "=" ++ p.2)).foldl
        (fun props pair =>
          let comps := splitChar '=' pair
          let key := comps.headD ""
          if key = "" then props
          else jsObjSet props (jsTrim key) (jsTrim ((comps.drop 1).headD "")))
        acc = acc ++ ps := by
  induction ps with
  | nil => intro acc _ _ _; simp
  | cons p rest ih =>
    intro acc hOK hfresh hnd
    rw [List.map_cons, List.nodup_cons] at hnd
    obtain ⟨hk, hv⟩ := hOK p (List.mem_cons_self p rest)
    have hkne : ¬ p.1 = "" := partOK_ne p.1 hk
    have hsplit := splitChar_pair p.1 p.2
      (valueOK_not_mem p.1 (partOK_valueOK p.1 hk) '=' (by decide))
      (valueOK_not_mem p.2 hv '=' (by decide))
    have hbody : (let comps := splitChar '=' (p.1 ++ "=" ++ p.2)
        let key := comps.headD ""
        if key = "" then acc
        else jsObjSet acc (jsTrim key) (jsTrim ((comps.drop 1).headD "")))
        = acc ++ [(p.1, p.2)] := by
      simp only [hsplit]
      show (if p.1 = "" then acc
        else jsObjSet acc (jsTrim p.1) (jsTrim p.2)) = acc ++ [(p.1, p.2)]
      rw [if_neg hkne,
        jsTrim_of_no_ws p.1 (valueOK_no_ws p.1 (partOK_valueOK p.1 hk)),
        jsTrim_of_no_ws p.2 (valueOK_no_ws p.2 hv),
        jsObjSet_fresh acc p.1 p.2
          (fun q hq => hfresh p (List.mem_cons_self p rest) q hq)]
    rw [List.map_cons, List.foldl_cons, hbody,
      ih (acc ++ [(p.1, p.2)])
        (fun q hq => hOK q (List.mem_cons_of_mem p hq))
        (fun r hr q hq => by
          rcases List.mem_append.mp hq with hq' | hq'
          · exact hfresh r (List.mem_cons_of_mem p hr) q hq'
          · rcases List.mem_singleton.mp hq' with rfl
            intro hq1
            apply hnd.1
            have hr1 : r.1 ∈ rest.map (·.1) := List.mem_map_of_mem (·.1) hr
            rwa [← hq1] at hr1)
        hnd.2]
    simp

/-- `parsePropsPairs` over the canonical pair strings of a well-formed
property list recovers the list exactly. -/
theorem parsePropsPairs_exact (ps : List (String × String))
    (hOK : ∀ p ∈ ps, partOK p.1 = true ∧ valueOK p.2 = true)
    (hnd : (ps.map (·.1)).Nodup) :
    parsePropsPairs (ps.map (fun p => p.1 ++ "=" ++ p.2)) = ps := by
  have h := parsePropsPairs_go ps [] hOK
    (fun p _ q hq => absurd hq (List.not_mem_nil q)) hnd
  simpa [parsePropsPairs] using h

/-- Parsing a bracketed block string with a well-formed name position and
a nonempty bracket body: the name is trimmed and normalized, the body is
handed to the property-pair loop. -/
theorem parseBlockString_bracket (n : String) (J : List Char)
    (hnb : '[' ∉ n.data)
    (hnws : ∀ ch ∈ n.data, ¬ ch.isWhitespace = true) (hJne : J ≠ []) :
    parseBlockString (n ++ "[" ++ String.mk J ++ "]") =
      { name := normalizeBlockName n,
        props := parsePropsPairs (splitChar ',' (String.mk J)) } := by
  have hsdata : (n ++ "[" ++ String.mk J ++ "]").data =
      n.data ++ '[' :: (J ++ [']']) := by
    rw [String.data_append, String.data_append, String.data_append,
      show ("[" : String).data = ['['] from rfl,
      show ("]" : String).data = [']'] from rfl,
      show (String.mk J).data = J from rfl]
    simp
  have hsne : ¬ (n ++ "[" ++ String.mk J ++ "]") = "" := by
    intro heq
    have hd := congrArg String.data heq
    rw [hsdata, show ("" : String).data = [] from rfl] at hd
    simp at hd
  have hlast : (n.data ++ '[' :: (J ++ [']'])).getLast? = some ']' := by
    rw [show n.data ++ '[' :: (J ++ [']']) = (n.data ++ '[' :: J) ++ [']']
      by simp]
    exact List.getLast?_concat _
  simp [parseBlockString, hsne, hsdata,
    breakAtChar_first '[' (J ++ [']']) n.data hnb, hlast,
    List.dropLast_concat, List.length_pos, hJne, mk_data,
    jsTrim_of_no_ws n hnws]

/-- Parsing the canonical string of a well-formed sorted block
specification recovers the specification exactly, state properties
included. -/
theorem parse_stringify (n : String) (ps : List (String × String))
    (hWF : specWF n ps) :
    parseBlockString (stringifyBlock n ps) = ⟨n, ps⟩ := by
  obtain ⟨hn, hps, hnd, hsort⟩ := hWF
  have hne : ¬ n = "" := partOK_ne n hn
  have hnv : valueOK n = true := partOK_valueOK n hn
  have hnorm : normalizeBlockName n = n :=
    normalizeBlockName_plain n (valueOK_not_mem n hnv ':' (by decide))
  cases ps with
  | nil =>
    have hstr : stringifyBlock n [] = n := by
      simp [stringifyBlock, hnorm]
    have hnb : '[' ∉ n.data := valueOK_not_mem n hnv '[' (by decide)
    rw [hstr]
    simp [parseBlockString, hne, breakAtChar_not_mem '[' n.data hnb,
      jsTrim_of_no_ws n (valueOK_no_ws n hnv), hnorm]
  | cons p rest =>
    have hsorted : List.insertionSort
        (fun a b => strLe a.1 b.1 = true) (p :: rest) = p :: rest :=
      List.Sorted.insertionSort_eq hsort
    have hstr : stringifyBlock n (p :: rest) =
        n ++ "[" ++ String.mk (joinSep ',' (List.map
          (fun q => (q.1 ++ "=" ++ q.2).data) (p :: rest))) ++ "]" := by
      unfold stringifyBlock
      rw [hsorted]
      simp [hnorm]
    obtain ⟨hk, hv⟩ := hps p (List.mem_cons_self p rest)
    have hpiece_ne : (p.1 ++ "=" ++ p.2).data ≠ [] := by
      rw [pair_data]; simp
    have hJne : joinSep ',' (List.map
        (fun q => (q.1 ++ "=" ++ q.2).data) (p :: rest)) ≠ [] := by
      rw [List.map_cons]
      exact joinSep_ne_nil ',' _ _ hpiece_ne
    have hnc : ∀ piece ∈ List.map
        (fun q => (q.1 ++ "=" ++ q.2).data) (p :: rest), ',' ∉ piece := by
      intro piece hmem
      rw [List.mem_map] at hmem
      obtain ⟨q, hq, rfl⟩ := hmem
      obtain ⟨hq1, hq2⟩ := hps q hq
      rw [pair_data]
      intro hmem'
      rcases List.mem_append.mp hmem' with h' | h'
      · exact valueOK_not_mem q.1 (partOK_valueOK q.1 hq1) ','
          (by decide) h'
      · rcases List.mem_cons.mp h' with h'' | h''
        · exact absurd h'' (by decide)
        · exact valueOK_not_mem q.2 hq2 ',' (by decide) h''
    have hsplitJ : splitChar ',' (String.mk (joinSep ','
        (List.map (fun q => (q.1 ++ "=" ++ q.2).data) (p :: rest)))) =
        (p :: rest).map (fun q => q.1 ++ "=" ++ q.2) := by
      unfold splitChar
      rw [show (String.mk (joinSep ',' (List.map
          (fun q => (q.1 ++ "=" ++ q.2).data) (p :: rest)))).data =
          joinSep ',' (List.map (fun q => (q.1 ++ "=" ++ q.2).data)
            (p :: rest)) from rfl,
        splitCharAux_joinSep ',' _ (by simp) hnc, List.map_map]
      exact List.map_congr_left (fun q _ => mk_data (q.1 ++ "=" ++ q.2))
    rw [hstr, parseBlockString_bracket n _
      (valueOK_not_mem n hnv '[' (by decide)) (valueOK_no_ws n hnv) hJne,
      hsplitJ, parsePropsPairs_exact (p :: rest) hps hnd, hnorm]

/-- The canonical form of a canonical block string is itself. -/
theorem canonical_stringify (n : String) (ps : List (String × String))
    (hWF : specWF n ps) :
    canonicalBlock (stringifyBlock n ps) = stringifyBlock n ps := by
  unfold canonicalBlock
  rw [parse_stringify n ps hWF]

/-- Re-attaching the `minecraft:` namespace does not change the
canonical string. -/
theorem stringifyBlock_mc (n : String) (h : ':' ∉ n.data)
    (ps : List (String × String)) :
    stringifyBlock ("minecraft:" ++ n) ps = stringifyBlock n ps := by
  unfold stringifyBlock
  rw [normalizeBlockName_mc n h, normalizeBlockName_plain n h]

/-- Decoding the encoder's NBT palette entry of a canonical block string
returns the very same string. -/
theorem decode_enc_palette (n : String) (ps : List (String × String))
    (hWF : specWF n ps) :
    decodePaletteEntry (encPaletteEntry (stringifyBlock n ps)) =
      stringifyBlock n ps := by
  have hcolon : ':' ∉ n.data :=
    valueOK_not_mem n (partOK_valueOK n hWF.1) ':' (by decide)
  unfold decodePaletteEntry encPaletteEntry
  rw [parse_stringify n ps hWF]
  exact stringifyBlock_mc n hcolon ps

/-- The `bpStep` update in explicit pair form. -/
theorem bpStep_eq (pal : List String) (ids : List ℕ) (b : String) :
    bpStep (pal, ids) b =
      (if b ∈ pal then pal else pal ++ [b],
       ids ++ [(if b ∈ pal then pal else pal ++ [b]).indexOf b]) := rfl

/-- The palette only grows by appending during the accumulation. -/
theorem bp_grows (cells : List String) :
    ∀ pal ids, pal <+: (cells.foldl bpStep (pal, ids)).1 := by
  induction cells with
  | nil => intro pal ids; exact List.prefix_refl pal
  | cons b rest ih =>
    intro pal ids
    rw [List.foldl_cons, bpStep_eq]
    by_cases hb : b ∈ pal
    · rw [if_pos hb]
      exact ih pal _
    · rw [if_neg hb]
      exact List.IsPrefix.trans (List.prefix_append pal [b]) (ih (pal ++ [b]) _)

/-- Every scanned cell value ends up in the final palette. -/
theorem bp_mem (cells : List String) :
    ∀ pal ids b, b ∈ cells → b ∈ (cells.foldl bpStep (pal, ids)).1 := by
  induction cells with
  | nil => intro pal ids b h; exact absurd h (List.not_mem_nil b)
  | cons c rest ih =>
    intro pal ids b h
    rw [List.foldl_cons, bpStep_eq]
    rcases List.mem_cons.mp h with rfl | h'
    · have hmem : b ∈ (if b ∈ pal then pal else pal ++ [b]) := by
        by_cases hb : b ∈ pal
        · rwa [if_pos hb]
        · rw [if_neg hb]; simp
      exact (bp_grows rest _ _).subset hmem
    · exact ih _ _ b h'

/-- Every final palette entry came from the start palette or a cell. -/
theorem bp_pal_subset (cells : List String) :
    ∀ pal ids b, b ∈ (cells.foldl bpStep (pal, ids)).1 →
      b ∈ pal ∨ b ∈ cells := by
  induction cells with
  | nil => intro pal ids b h; exact Or.inl h
  | cons c rest ih =>
    intro pal ids b h
    rw [List.foldl_cons, bpStep_eq] at h
    rcases ih _ _ b h with h' | h'
    · by_cases hc : c ∈ pal
      · rw [if_pos hc] at h'
        exact Or.inl h'
      · rw [if_neg hc] at h'
        rcases List.mem_append.mp h' with h'' | h''
        · exact Or.inl h''
        · exact Or.inr (List.mem_cons.mpr (Or.inl (List.mem_singleton.mp h'')))
    · exact Or.inr (List.mem_cons_of_mem c h')

/-- The accumulated palette stays duplicate-free. -/
theorem bp_pal_nodup (cells : List String) :
    ∀ pal ids, pal.Nodup → (cells.foldl bpStep (pal, ids)).1.Nodup := by
  induction cells with
  | nil => intro pal ids h; exact h
  | cons c rest ih =>
    intro pal ids h
    rw [List.foldl_cons, bpStep_eq]
    by_cases hc : c ∈ pal
    · rw [if_pos hc]
      exact ih _ _ h
    · rw [if_neg hc]
      refine ih _ _ (List.nodup_append.mpr ⟨h, List.nodup_singleton c, ?_⟩)
      intro a ha hb
      exact hc ((List.mem_singleton.mp hb) ▸ ha)

/-- The ids pushed by the accumulation are the indices of the cell
values in the final palette. -/
theorem bp_ids (cells : List String) :
    ∀ pal ids, (cells.foldl bpStep (pal, ids)).2 =
      ids ++ cells.map
        (fun b => (cells.foldl bpStep (pal, ids)).1.indexOf b) := by
  induction cells with
  | nil => intro pal ids; simp
  | cons c rest ih =>
    intro pal ids
    rw [List.foldl_cons, bpStep_eq]
    have hcm : c ∈ (if c ∈ pal then pal else pal ++ [c]) := by
      by_cases hc : c ∈ pal
      · rwa [if_pos hc]
      · rw [if_neg hc]; simp
    obtain ⟨t, ht⟩ := bp_grows rest (if c ∈ pal then pal else pal ++ [c])
      (ids ++ [(if c ∈ pal then pal else pal ++ [c]).indexOf c])
    have hidx : (rest.foldl bpStep (if c ∈ pal then pal else pal ++ [c],
        ids ++ [(if c ∈ pal then pal else pal ++ [c]).indexOf c])).1.indexOf c =
        (if c ∈ pal then pal else pal ++ [c]).indexOf c := by
      rw [← ht]
      exact List.indexOf_append_of_mem hcm
    rw [ih, List.map_cons, hidx]
    simp

/-- `buildPaletteIds`: the ids list is the per-cell index into the final
palette. -/
theorem buildPaletteIds_ids (cells : List String) :
    (buildPaletteIds cells).2 = cells.map
      (fun b => (buildPaletteIds cells).1.indexOf b) := by
  have h := bp_ids cells [] []
  simpa [buildPaletteIds] using h

/-- `buildPaletteIds`: every cell value is in the palette. -/
theorem buildPaletteIds_mem (cells : List String) (b : String)
    (h : b ∈ cells) : b ∈ (buildPaletteIds cells).1 :=
  bp_mem cells [] [] b h

/-- `buildPaletteIds`: the palette is duplicate-free. -/
theorem buildPaletteIds_nodup (cells : List String) :
    (buildPaletteIds cells).1.Nodup :=
  bp_pal_nodup cells [] [] List.nodup_nil

/-- `buildPaletteIds`: every palette entry is a cell value. -/
theorem buildPaletteIds_subset (cells : List String) (b : String)
    (h : b ∈ (buildPaletteIds cells).1) : b ∈ cells := by
  rcases bp_pal_subset cells [] [] b h with h' | h'
  · exact absurd h' (List.not_mem_nil b)
  · exact h'

/-- Nibble extraction from one packed 32-bit half: shifting by `4u` and
masking recovers the `u`-th packed id when all packed ids fit in 4 bits. -/
theorem packWord_extract (ids : List ℕ) (start u : ℕ) (hu : u < 8)
    (hn : ∀ t, t < 8 → ids.getD (start + t) 0 < 16) :
    (packWord ids start >>> (4 * u)) % 16 = ids.getD (start + u) 0 := by
  have h0 := hn 0 (by norm_num)
  have h1 := hn 1 (by norm_num)
  have h2 := hn 2 (by norm_num)
  have h3 := hn 3 (by norm_num)
  have h4 := hn 4 (by norm_num)
  have h5 := hn 5 (by norm_num)
  have h6 := hn 6 (by norm_num)
  have h7 := hn 7 (by norm_num)
  unfold packWord
  rw [show List.range 8 = [0, 1, 2, 3, 4, 5, 6, 7] from rfl]
  simp only [List.map_cons, List.map_nil, List.sum_cons, List.sum_nil,
    Nat.shiftLeft_eq]
  interval_cases u <;>
    simp only [Nat.shiftRight_eq_div_pow] <;>
    norm_num at h0 h1 h2 h3 h4 h5 h6 h7 ⊢ <;> omega

/-- Extracting sub-index `k` of long `j` from the packed long array
recovers id `16·j + 15 − k` (the decoder's mirrored X traversal). -/
theorem extractId_packLongs (ids : List ℕ) (j k : ℕ)
    (hj : j < ids.length / 16) (hk : k < 16)
    (hn : ∀ t, ids.getD t 0 < 16) :
    extractId ((packLongs ids).getD j (0, 0)) k =
      ids.getD (16 * j + 15 - k) 0 := by
  have hlen : j < (packLongs ids).length := by
    rw [packLongs, List.length_map, List.length_range]
    exact hj
  have hget : (packLongs ids).getD j (0, 0) =
      (packWord ids (16 * j + 8), packWord ids (16 * j)) := by
    rw [List.getD_eq_getElem _ _ hlen]
    simp [packLongs]
  simp only [hget, extractId]
  by_cases hk8 : k < 8
  · rw [if_pos hk8, show 28 - k * 4 = 4 * (7 - k) by omega,
      packWord_extract ids (16 * j + 8) (7 - k) (by omega)
        (fun t _ => hn (16 * j + 8 + t)),
      show 16 * j + 8 + (7 - k) = 16 * j + 15 - k by omega]
  · rw [if_neg hk8, show 28 - (k - 8) * 4 = 4 * (15 - k) by omega,
      packWord_extract ids (16 * j) (15 - k) (by omega)
        (fun t _ => hn (16 * j + t)),
      show 16 * j + (15 - k) = 16 * j + 15 - k by omega]

/-- `vset` hits its target cell. -/
theorem vset_same (v : Volume) (a b c : ℤ) (s : String) :
    vset v a b c s a b c = s := by
  show (if a = a ∧ b = b ∧ c = c then s else v a b c) = s
  simp

/-- `vset` preserves every other cell. -/
theorem vset_other (v : Volume) (a b c a' b' c' : ℤ) (s : String)
    (h : ¬ (a' = a ∧ b' = b ∧ c' = c)) :
    vset v a b c s a' b' c' = v a' b' c' := by
  show (if a' = a ∧ b' = b ∧ c' = c then s else v a' b' c') = v a' b' c'
  exact if_neg h

/-- A volume fold whose every step leaves a cell unchanged leaves it
unchanged. -/
theorem foldl_volume_preserve {ι : Type} (f : Volume → ι → Volume)
    (a b c : ℤ) :
    ∀ l : List ι, (∀ w i, i ∈ l → f w i a b c = w a b c) →
      ∀ w, (l.foldl f w) a b c = w a b c := by
  intro l
  induction l with
  | nil => intro _ w; rfl
  | cons i rest ih =>
    intro h w
    rw [List.foldl_cons,
      ih (fun w' i' hi' => h w' i' (List.mem_cons_of_mem i hi')) (f w i)]
    exact h w i (List.mem_cons_self i rest)

/-- A volume fold whose every step either preserves a cell or sets it to
`s` keeps the cell at `s`. -/
theorem foldl_volume_stay {ι : Type} (f : Volume → ι → Volume)
    (a b c : ℤ) (s : String) :
    ∀ l : List ι,
      (∀ w i, i ∈ l → f w i a b c = w a b c ∨ f w i a b c = s) →
      ∀ w, w a b c = s → (l.foldl f w) a b c = s := by
  intro l
  induction l with
  | nil => intro _ w hw; exact hw
  | cons i rest ih =>
    intro h w hw
    rw [List.foldl_cons]
    refine ih (fun w' i' hi' => h w' i' (List.mem_cons_of_mem i hi'))
      (f w i) ?_
    rcases h w i (List.mem_cons_self i rest) with h' | h'
    · rw [h', hw]
    · exact h'

/-- A volume fold with a step that sets a cell to `s`, all other steps
preserving or setting it to `s`, ends with the cell at `s`. -/
theorem foldl_volume_hits {ι : Type} (f : Volume → ι → Volume)
    (a b c : ℤ) (s : String) (i₀ : ι) :
    ∀ l : List ι, i₀ ∈ l →
      (∀ w, f w i₀ a b c = s) →
      (∀ w i, i ∈ l → f w i a b c = w a b c ∨ f w i a b c = s) →
      ∀ w, (l.foldl f w) a b c = s := by
  intro l
  induction l with
  | nil => intro hmem; exact absurd hmem (List.not_mem_nil i₀)
  | cons i rest ih =>
    intro hmem hset hall w
    rw [List.foldl_cons]
    by_cases hi : i₀ ∈ rest
    · exact ih hi hset
        (fun w' i' hi' => hall w' i' (List.mem_cons_of_mem i hi')) (f w i)
    · have hii : i = i₀ := by
        rcases List.mem_cons.mp hmem with h' | h'
        · exact h'.symm
        · exact absurd h' hi
      subst hii
      exact foldl_volume_stay f a b c s rest
        (fun w' i' hi' => hall w' i' (List.mem_cons_of_mem i hi'))
        (f w i) (hset w)

/-- Length of a `flatMap` over `range n` with constant block length. -/
theorem flatMap_range_length {α : Type} (f : ℕ → List α) (m : ℕ)
    (hlen : ∀ i, (f i).length = m) :
    ∀ n, ((List.range n).flatMap f).length = n * m := by
  intro n
  induction n with
  | zero => simp
  | succ n ih =>
    rw [List.range_succ, List.flatMap_append, List.length_append, ih,
      List.flatMap_cons, List.flatMap_nil, List.append_nil, hlen n,
      Nat.succ_mul]

/-- Indexing a `flatMap` over `range n` with constant block length. -/
theorem flatMap_range_getD {α : Type} (d : α) (f : ℕ → List α) (m : ℕ)
    (hlen : ∀ i, (f i).length = m) :
    ∀ n i r, i < n → r < m →
      ((List.range n).flatMap f).getD (i * m + r) d = (f i).getD r d := by
  intro n
  induction n with
  | zero => intro i r hi _; exact absurd hi (Nat.not_lt_zero i)
  | succ n ih =>
    intro i r hi hr
    rw [List.range_succ, List.flatMap_append]
    rcases Nat.lt_or_ge i n with hin | hin
    · have hidx : i * m + r < ((List.range n).flatMap f).length := by
        rw [flatMap_range_length f m hlen n]
        have h1 : i * m + m ≤ n * m := by
          have h2 : (i + 1) * m ≤ n * m :=
            Nat.mul_le_mul_right m (Nat.succ_le_of_lt hin)
          calc i * m + m = (i + 1) * m := by ring
          _ ≤ n * m := h2
        omega
      rw [List.getD_append _ _ _ _ hidx]
      exact ih i r hin hr
    · have hieq : i = n := by omega
      subst hieq
      have hge : ((List.range i).flatMap f).length ≤ i * m + r := by
        rw [flatMap_range_length f m hlen i]
        omega
      rw [List.getD_append_right _ _ _ _ hge,
        flatMap_range_length f m hlen i,
        show i * m + r - i * m = r by omega, List.flatMap_cons,
        List.flatMap_nil, List.append_nil]

/-- The encoder's scan list has one entry per section cell. -/
theorem sectionCells_length : sectionCells.length = 4096 := by
  unfold sectionCells
  rw [flatMap_range_length _ 256
    (fun y => flatMap_range_length _ 16
      (fun z => by rw [List.length_map, List.length_range]) 16) 16]

/-- The encoder's scan cell at flat index `256·yo + 16·zo + xo`. -/
theorem sectionCells_getD (yo zo xo : ℕ) (hy : yo < 16) (hz : zo < 16)
    (hx : xo < 16) :
    sectionCells.getD (256 * yo + 16 * zo + xo) (0, 0, 0) =
      (yo, zo, xo) := by
  unfold sectionCells
  rw [show 256 * yo + 16 * zo + xo = yo * 256 + (16 * zo + xo) by ring,
    flatMap_range_getD (0, 0, 0) _ 256
      (fun y => flatMap_range_length _ 16
        (fun z => by rw [List.length_map, List.length_range]) 16)
      16 yo (16 * zo + xo) hy (by omega),
    show 16 * zo + xo = zo * 16 + xo by ring,
    flatMap_range_getD (0, 0, 0) _ 16
      (fun z => by rw [List.length_map, List.length_range])
      16 zo xo hz hx,
    List.getD_eq_getElem _ _
      (by rw [List.length_map, List.length_range]; exact hx)]
  simp

/-- Floor division by 16 on the chunk containing a coordinate. -/
theorem fdiv16_eq (a q : ℤ) (h1 : 16 * q ≤ a) (h2 : a < 16 * q + 16) :
    a.fdiv 16 = q := by
  rw [Int.fdiv_eq_ediv _ (by norm_num)]
  omega

/-- Floor division by 16 is monotone. -/
theorem fdiv16_le (a b : ℤ) (h : a ≤ b) : a.fdiv 16 ≤ b.fdiv 16 := by
  rw [Int.fdiv_eq_ediv _ (by norm_num), Int.fdiv_eq_ediv _ (by norm_num)]
  omega

/-- `decodeWrite` at its own in-bounds target stores the palette value. -/
theorem decodeWrite_hit (bounds : Vec3 × Vec3) (pal : List String)
    (id : ℕ) (x y z : ℤ) (v : Volume)
    (hin : bounds.1.x ≤ x ∧ x < bounds.2.x ∧ bounds.1.y ≤ y ∧
      y < bounds.2.y ∧ bounds.1.z ≤ z ∧ z < bounds.2.z) :
    decodeWrite bounds pal id x y z v (x - bounds.1.x) (y - bounds.1.y)
      (z - bounds.1.z) = pal.getD id "undefined" := by
  unfold decodeWrite
  rw [if_neg (by omega)]
  exact vset_same v _ _ _ _

/-- `decodeWrite` leaves every cell other than its target unchanged. -/
theorem decodeWrite_ne (bounds : Vec3 × Vec3) (pal : List String)
    (id : ℕ) (x' y' z' x y z : ℤ) (v : Volume)
    (h : ¬ (x' = x ∧ y' = y ∧ z' = z)) :
    decodeWrite bounds pal id x' y' z' v (x - bounds.1.x)
      (y - bounds.1.y) (z - bounds.1.z) =
      v (x - bounds.1.x) (y - bounds.1.y) (z - bounds.1.z) := by
  unfold decodeWrite
  split
  · rfl
  · exact vset_other v _ _ _ _ _ _ _ (by omega)

set_option maxHeartbeats 1600000 in
/-- The packed decode stores the extracted palette value at an
in-bounds cell of its own section cube. -/
theorem decodeDataStore_cell (bounds : Vec3 × Vec3) (cx cz sy x y z : ℤ)
    (xo yo zo : ℕ) (hxo : xo < 16) (hyo : yo < 16) (hzo : zo < 16)
    (hx : x = cx * 16 + (xo : ℤ)) (hy : y = sy * 16 + (yo : ℤ))
    (hz : z = cz * 16 + (zo : ℤ))
    (hin : bounds.1.x ≤ x ∧ x < bounds.2.x ∧ bounds.1.y ≤ y ∧
      y < bounds.2.y ∧ bounds.1.z ≤ z ∧ z < bounds.2.z)
    (pal : List String) (longs : List (ℕ × ℕ)) (hlen : longs.length = 256)
    (s : String)
    (hval : pal.getD
      (extractId (longs.getD (16 * yo + zo) (0, 0)) (15 - xo))
      "undefined" = s) :
    ∀ w, decodeDataStore bounds cx cz sy pal longs w (x - bounds.1.x)
      (y - bounds.1.y) (z - bounds.1.z) = s := by
  intro w
  unfold decodeDataStore
  rw [hlen]
  have hone : ∀ w'' : Volume, decodeWrite bounds pal
      (extractId (longs.getD (16 * yo + zo) (0, 0)) (15 - xo))
      (cx * 16 + 15 - ((15 - xo : ℕ) : ℤ))
      (sy * 16 + (((16 * yo + zo) / 16 : ℕ) : ℤ))
      (cz * 16 + (((16 * yo + zo) % 16 : ℕ) : ℤ)) w''
      (x - bounds.1.x) (y - bounds.1.y) (z - bounds.1.z) = s := by
    intro w''
    have hx' : cx * 16 + 15 - ((15 - xo : ℕ) : ℤ) = x := by omega
    have hy' : sy * 16 + (((16 * yo + zo) / 16 : ℕ) : ℤ) = y := by omega
    have hz' : cz * 16 + (((16 * yo + zo) % 16 : ℕ) : ℤ) = z := by omega
    rw [hx', hy', hz', decodeWrite_hit bounds pal _ x y z w'' hin]
    exact hval
  have hhit : ∀ w' : Volume, (List.range 16).foldl
      (fun (v : Volume) (k : ℕ) => decodeWrite bounds pal
        (extractId (longs.getD (16 * yo + zo) (0, 0)) k)
        (cx * 16 + 15 - (k : ℤ))
        (sy * 16 + (((16 * yo + zo) / 16 : ℕ) : ℤ))
        (cz * 16 + (((16 * yo + zo) % 16 : ℕ) : ℤ)) v)
      w' (x - bounds.1.x) (y - bounds.1.y) (z - bounds.1.z) = s := by
    intro w'
    refine foldl_volume_hits _ (x - bounds.1.x) (y - bounds.1.y)
      (z - bounds.1.z) s (15 - xo) (List.range 16)
      (List.mem_range.mpr (by omega)) (fun w'' => hone w'') ?_ w'
    intro w'' k hk
    by_cases hkx : k = 15 - xo
    · subst hkx
      exact Or.inr (hone w'')
    · have hk16 : k < 16 := List.mem_range.mp hk
      exact Or.inl (decodeWrite_ne bounds pal _ _ _ _ x y z w'' (by omega))
  refine foldl_volume_hits _ (x - bounds.1.x) (y - bounds.1.y)
    (z - bounds.1.z) s (16 * yo + zo) (List.range 256)
    (List.mem_range.mpr (by omega)) (fun w' => hhit w') ?_ w
  intro w' j hj
  by_cases hjj : j = 16 * yo + zo
  · subst hjj
    exact Or.inr (hhit w')
  · have hj256 : j < 256 := List.mem_range.mp hj
    refine Or.inl (foldl_volume_preserve _ (x - bounds.1.x)
      (y - bounds.1.y) (z - bounds.1.z) (List.range 16) ?_ w')
    intro w'' k hk
    have hk16 : k < 16 := List.mem_range.mp hk
    exact decodeWrite_ne bounds pal _ _ _ _ x y z w'' (by omega)

set_option maxHeartbeats 1600000 in
set_option maxRecDepth 16000 in
/-- The palette-only fill stores `palette[0]` at an in-bounds cell of
its own section cube. -/
theorem decodeFill_cell (bounds : Vec3 × Vec3) (cx cz sy x y z : ℤ)
    (xo yo zo : ℕ) (hxo : xo < 16) (hyo : yo < 16) (hzo : zo < 16)
    (hx : x = cx * 16 + (xo : ℤ)) (hy : y = sy * 16 + (yo : ℤ))
    (hz : z = cz * 16 + (zo : ℤ))
    (hin : bounds.1.x ≤ x ∧ x < bounds.2.x ∧ bounds.1.y ≤ y ∧
      y < bounds.2.y ∧ bounds.1.z ≤ z ∧ z < bounds.2.z)
    (pal : List String) (s : String)
    (hval : pal.getD 0 "undefined" = s) :
    ∀ w, decodeFill bounds cx cz sy pal w (x - bounds.1.x)
      (y - bounds.1.y) (z - bounds.1.z) = s := by
  intro w
  unfold decodeFill
  have hone : ∀ w'' : Volume, decodeWrite bounds pal 0
      (cx * 16 + (15 - ((15 - xo : ℕ) : ℤ))) (sy * 16 + (yo : ℤ))
      (cz * 16 + (zo : ℤ)) w'' (x - bounds.1.x) (y - bounds.1.y)
      (z - bounds.1.z) = s := by
    intro w''
    have hx' : cx * 16 + (15 - ((15 - xo : ℕ) : ℤ)) = x := by omega
    rw [hx', ← hy, ← hz, decodeWrite_hit bounds pal 0 x y z w'' hin]
    exact hval
  have hinner : ∀ w' : Volume, (List.range 16).foldl
      (fun (v : Volume) (l : ℕ) =>
        decodeWrite bounds pal 0 (cx * 16 + (15 - (l : ℤ)))
        (sy * 16 + (yo : ℤ)) (cz * 16 + (zo : ℤ)) v) w'
      (x - bounds.1.x) (y - bounds.1.y) (z - bounds.1.z) = s := by
    intro w'
    refine foldl_volume_hits
      (fun (v : Volume) (l : ℕ) =>
        decodeWrite bounds pal 0 (cx * 16 + (15 - (l : ℤ)))
        (sy * 16 + (yo : ℤ)) (cz * 16 + (zo : ℤ)) v)
      (x - bounds.1.x) (y - bounds.1.y)
      (z - bounds.1.z) s (15 - xo) (List.range 16)
      (List.mem_range.mpr (by omega)) (fun w'' => hone w'') ?_ w'
    intro w'' l hl
    by_cases hlx : l = 15 - xo
    · subst hlx
      exact Or.inr (hone w'')
    · have hl16 : l < 16 := List.mem_range.mp hl
      exact Or.inl (decodeWrite_ne bounds pal 0 _ _ _ x y z w'' (by omega))
  have hmid : ∀ w' : Volume, (List.range 16).foldl
      (fun (v : Volume) (k : ℕ) => (List.range 16).foldl
        (fun (v : Volume) (l : ℕ) =>
          decodeWrite bounds pal 0 (cx * 16 + (15 - (l : ℤ)))
          (sy * 16 + (yo : ℤ)) (cz * 16 + (k : ℤ)) v) v) w'
      (x - bounds.1.x) (y - bounds.1.y) (z - bounds.1.z) = s := by
    intro w'
    refine foldl_volume_hits
      (fun (v : Volume) (k : ℕ) => (List.range 16).foldl
        (fun (v : Volume) (l : ℕ) =>
          decodeWrite bounds pal 0 (cx * 16 + (15 - (l : ℤ)))
          (sy * 16 + (yo : ℤ)) (cz * 16 + (k : ℤ)) v) v)
      (x - bounds.1.x) (y - bounds.1.y)
      (z - bounds.1.z) s zo (List.range 16)
      (List.mem_range.mpr hzo) (fun w'' => hinner w'') ?_ w'
    intro w'' k hk
    by_cases hkz : k = zo
    · subst hkz
      exact Or.inr (hinner w'')
    · have hk16 : k < 16 := List.mem_range.mp hk
      refine Or.inl (foldl_volume_preserve _ (x - bounds.1.x)
        (y - bounds.1.y) (z - bounds.1.z) (List.range 16) ?_ w'')
      intro w₃ l hl
      have hl16 : l < 16 := List.mem_range.mp hl
      exact decodeWrite_ne bounds pal 0 _ _ _ x y z w₃ (by omega)
  refine foldl_volume_hits
    (fun (v : Volume) (j : ℕ) => (List.range 16).foldl
      (fun (v : Volume) (k : ℕ) => (List.range 16).foldl
        (fun (v : Volume) (l : ℕ) =>
          decodeWrite bounds pal 0 (cx * 16 + (15 - (l : ℤ)))
          (sy * 16 + (j : ℤ)) (cz * 16 + (k : ℤ)) v) v) v)
    (x - bounds.1.x) (y - bounds.1.y)
    (z - bounds.1.z) s yo (List.range 16)
    (List.mem_range.mpr hyo) (fun w' => hmid w') ?_ w
  intro w' j hj
  by_cases hjy : j = yo
  · subst hjy
    exact Or.inr (hmid w')
  · have hj16 : j < 16 := List.mem_range.mp hj
    refine Or.inl (foldl_volume_preserve _ (x - bounds.1.x)
      (y - bounds.1.y) (z - bounds.1.z) (List.range 16) ?_ w')
    intro w'' k hk
    refine foldl_volume_preserve _ (x - bounds.1.x)
      (y - bounds.1.y) (z - bounds.1.z) (List.range 16) ?_ w''
    intro w₃ l hl
    have hl16 : l < 16 := List.mem_range.mp hl
    exact decodeWrite_ne bounds pal 0 _ _ _ x y z w₃ (by omega)

/-- The packed decode of a section never touches a cell whose chunk or
section coordinates differ from its own. -/
theorem decodeDataStore_preserve (bounds : Vec3 × Vec3) (cx cz sy : ℤ)
    (pal : List String) (longs : List (ℕ × ℕ)) (hlen : longs.length ≤ 256)
    (x y z : ℤ)
    (h : cx ≠ x.fdiv 16 ∨ sy ≠ y.fdiv 16 ∨ cz ≠ z.fdiv 16) :
    ∀ w, decodeDataStore bounds cx cz sy pal longs w (x - bounds.1.x)
      (y - bounds.1.y) (z - bounds.1.z) =
      w (x - bounds.1.x) (y - bounds.1.y) (z - bounds.1.z) := by
  intro w
  unfold decodeDataStore
  refine foldl_volume_preserve _ (x - bounds.1.x) (y - bounds.1.y)
    (z - bounds.1.z) _ ?_ w
  intro w' j hj
  have hj' : j < longs.length := List.mem_range.mp hj
  refine foldl_volume_preserve _ (x - bounds.1.x) (y - bounds.1.y)
    (z - bounds.1.z) _ ?_ w'
  intro w'' k hk
  have hk16 : k < 16 := List.mem_range.mp hk
  refine decodeWrite_ne bounds pal _ _ _ _ x y z w'' ?_
  rintro ⟨h1, h2, h3⟩
  have hxf : x.fdiv 16 = cx := fdiv16_eq x cx (by omega) (by omega)
  have hyf : y.fdiv 16 = sy := fdiv16_eq y sy (by omega) (by omega)
  have hzf : z.fdiv 16 = cz := fdiv16_eq z cz (by omega) (by omega)
  rcases h with h' | h' | h'
  · exact h' hxf.symm
  · exact h' hyf.symm
  · exact h' hzf.symm

/-- The palette-only fill of a section never touches a cell whose chunk
or section coordinates differ from its own. -/
theorem decodeFill_preserve (bounds : Vec3 × Vec3) (cx cz sy : ℤ)
    (pal : List String) (x y z : ℤ)
    (h : cx ≠ x.fdiv 16 ∨ sy ≠ y.fdiv 16 ∨ cz ≠ z.fdiv 16) :
    ∀ w, decodeFill bounds cx cz sy pal w (x - bounds.1.x)
      (y - bounds.1.y) (z - bounds.1.z) =
      w (x - bounds.1.x) (y - bounds.1.y) (z - bounds.1.z) := by
  intro w
  unfold decodeFill
  refine foldl_volume_preserve _ (x - bounds.1.x) (y - bounds.1.y)
    (z - bounds.1.z) _ ?_ w
  intro w' j hj
  have hj16 : j < 16 := List.mem_range.mp hj
  refine foldl_volume_preserve _ (x - bounds.1.x) (y - bounds.1.y)
    (z - bounds.1.z) _ ?_ w'
  intro w'' k hk
  have hk16 : k < 16 := List.mem_range.mp hk
  refine foldl_volume_preserve _ (x - bounds.1.x) (y - bounds.1.y)
    (z - bounds.1.z) _ ?_ w''
  intro w₃ l hl
  have hl16 : l < 16 := List.mem_range.mp hl
  refine decodeWrite_ne bounds pal 0 _ _ _ x y z w₃ ?_
  rintro ⟨h1, h2, h3⟩
  have hxf : x.fdiv 16 = cx := fdiv16_eq x cx (by omega) (by omega)
  have hyf : y.fdiv 16 = sy := fdiv16_eq y sy (by omega) (by omega)
  have hzf : z.fdiv 16 = cz := fdiv16_eq z cz (by omega) (by omega)
  rcases h with h' | h' | h'
  · exact h' hxf.symm
  · exact h' hyf.symm
  · exact h' hzf.symm

/-- Decoding one section never touches a cell whose chunk or section
coordinates differ from the section's own, provided any packed data it
holds is at most 256 longs. -/
theorem decodeSection_preserve (bounds : Vec3 × Vec3) (cx cz : ℤ)
    (sec : McSection) (x y z : ℤ)
    (hdata : ∀ bs longs, sec.blockStates = some bs →
      bs.data = some longs → longs.length ≤ 256)
    (h : cx ≠ x.fdiv 16 ∨ sec.y ≠ y.fdiv 16 ∨ cz ≠ z.fdiv 16) :
    ∀ w, decodeSection bounds cx cz sec w (x - bounds.1.x)
      (y - bounds.1.y) (z - bounds.1.z) =
      w (x - bounds.1.x) (y - bounds.1.y) (z - bounds.1.z) := by
  intro w
  unfold decodeSection
  cases hbs : sec.blockStates with
  | none => simp only [hbs]
  | some bs =>
    simp only [hbs]
    cases hd : bs.data with
    | none =>
      simp only [hd]
      exact decodeFill_preserve bounds cx cz sec.y _ x y z h w
    | some longs =>
      simp only [hd]
      split_ifs with h1 h2
      · rfl
      · rfl
      · exact decodeDataStore_preserve bounds cx cz sec.y _ longs
          (hdata bs longs hbs hd) x y z h w

/-- The encoder's fetched block at a cell of its own section, when the
cell is in bounds: the canonicalized volume entry. -/
theorem cellBlock_self (v : Volume) (bounds : Vec3 × Vec3)
    (cx cz sy x y z : ℤ) (xo yo zo : ℕ)
    (hx : x = cx * 16 + (xo : ℤ)) (hy : y = sy * 16 + (yo : ℤ))
    (hz : z = cz * 16 + (zo : ℤ))
    (hin : bounds.1.x ≤ x ∧ x < bounds.2.x ∧ bounds.1.y ≤ y ∧
      y < bounds.2.y ∧ bounds.1.z ≤ z ∧ z < bounds.2.z) :
    cellBlock v bounds cx cz sy (yo, zo, xo) =
      canonicalBlock (v (x - bounds.1.x) (y - bounds.1.y)
        (z - bounds.1.z)) := by
  show canonicalBlock
    (if bounds.1.x ≤ cx * 16 + (xo : ℤ) ∧ cx * 16 + (xo : ℤ) < bounds.2.x ∧
        bounds.1.y ≤ sy * 16 + (yo : ℤ) ∧ sy * 16 + (yo : ℤ) < bounds.2.y ∧
        bounds.1.z ≤ cz * 16 + (zo : ℤ) ∧ cz * 16 + (zo : ℤ) < bounds.2.z
     then v (cx * 16 + (xo : ℤ) - bounds.1.x)
       (sy * 16 + (yo : ℤ) - bounds.1.y) (cz * 16 + (zo : ℤ) - bounds.1.z)
     else "air") =
    canonicalBlock (v (x - bounds.1.x) (y - bounds.1.y) (z - bounds.1.z))
  rw [← hx, ← hy, ← hz, if_pos hin]

/-- The encoder's scanned cell list at a flat index. -/
theorem cells_getD (v : Volume) (bounds : Vec3 × Vec3) (cx cz sy : ℤ)
    (yo zo xo : ℕ) (hy : yo < 16) (hz : zo < 16) (hx : xo < 16) :
    (sectionCells.map (cellBlock v bounds cx cz sy)).getD
      (256 * yo + 16 * zo + xo) "" =
      cellBlock v bounds cx cz sy (yo, zo, xo) := by
  have hidx : 256 * yo + 16 * zo + xo < sectionCells.length := by
    rw [sectionCells_length]
    omega
  rw [List.getD_eq_getElem _ _ (by rw [List.length_map]; exact hidx),
    List.getElem_map]
  congr 1
  rw [← List.getD_eq_getElem sectionCells (0, 0, 0) hidx]
  exact sectionCells_getD yo zo xo hy hz hx

/-- With a palette of at most 16 entries, every packed id fits 4 bits. -/
theorem buildPaletteIds_ids_lt (cells : List String)
    (hpal : (buildPaletteIds cells).1.length ≤ 16) :
    ∀ t, (buildPaletteIds cells).2.getD t 0 < 16 := by
  have hmem : ∀ id ∈ (buildPaletteIds cells).2, id < 16 := by
    intro id hid
    rw [buildPaletteIds_ids, List.mem_map] at hid
    obtain ⟨b, hb, rfl⟩ := hid
    have hlt : (buildPaletteIds cells).1.indexOf b <
        (buildPaletteIds cells).1.length :=
      List.indexOf_lt_length.mpr (buildPaletteIds_mem cells b hb)
    omega
  intro t
  by_cases ht : t < (buildPaletteIds cells).2.length
  · rw [List.getD_eq_getElem _ _ ht]
    exact hmem _ (List.getElem_mem ht)
  · rw [List.getD_eq_default _ _ (by omega)]
    norm_num

/-- The packed id at a cell index is the palette index of that cell's
block. -/
theorem buildPaletteIds_ids_getD (cells : List String) (t : ℕ)
    (ht : t < cells.length) :
    (buildPaletteIds cells).2.getD t 0 =
      (buildPaletteIds cells).1.indexOf (cells.getD t "") := by
  rw [buildPaletteIds_ids,
    List.getD_eq_getElem _ _ (by rw [List.length_map]; exact ht),
    List.getElem_map, ← List.getD_eq_getElem cells "" ht]

/-- Looking the palette index of a canonical block string back up in the
decoded palette returns the string. -/
theorem enc_palette_getD (pl : List String) (b : String) (hb : b ∈ pl)
    (nn : String) (pp : List (String × String)) (hWF : specWF nn pp)
    (hbs : b = stringifyBlock nn pp) :
    ((pl.map encPaletteEntry).map decodePaletteEntry).getD
      (pl.indexOf b) "undefined" = b := by
  have hlt : pl.indexOf b < pl.length := List.indexOf_lt_length.mpr hb
  rw [List.getD_eq_getElem _ _
      (by rw [List.length_map, List.length_map]; exact hlt),
    List.getElem_map, List.getElem_map, List.getElem_indexOf hlt, hbs]
  exact decode_enc_palette nn pp hWF

/-- The encoded section, spelled out as a structure literal. -/
theorem encodeSection_eq (v : Volume) (bounds : Vec3 × Vec3)
    (cx cz : ℤ) (s₀ : McSection) :
    encodeSection v bounds cx cz s₀ =
      ⟨s₀.y, some ⟨(buildPaletteIds (sectionCells.map
          (cellBlock v bounds cx cz s₀.y))).1.map encPaletteEntry,
        if (buildPaletteIds (sectionCells.map
            (cellBlock v bounds cx cz s₀.y))).1.length > 1
          then some (packLongs (buildPaletteIds (sectionCells.map
            (cellBlock v bounds cx cz s₀.y))).2)
          else none⟩⟩ := rfl

/-- `decodeSection` on a literal section carrying packed data. -/
theorem decodeSection_some_data (bounds : Vec3 × Vec3) (cx cz yv : ℤ)
    (P : List PaletteEntry) (L : List (ℕ × ℕ)) (v : Volume) :
    decodeSection bounds cx cz ⟨yv, some ⟨P, some L⟩⟩ v =
      if yv < bounds.1.y.fdiv 16 then v
      else if 16 * yv ≥ bounds.2.y then v
      else decodeDataStore bounds cx cz yv
        (P.map decodePaletteEntry) L v := rfl

/-- `decodeSection` on a literal section with no packed data. -/
theorem decodeSection_some_fill (bounds : Vec3 × Vec3) (cx cz yv : ℤ)
    (P : List PaletteEntry) (v : Volume) :
    decodeSection bounds cx cz ⟨yv, some ⟨P, none⟩⟩ v =
      decodeFill bounds cx cz yv (P.map decodePaletteEntry) v := rfl

set_option maxHeartbeats 1600000 in
/-- Decoding the encoder's output for a section recovers the canonical
volume entry at an in-bounds cell of that section. -/
theorem decodeSection_enc_hit (v : Volume) (bounds : Vec3 × Vec3)
    (cx cz sy x y z : ℤ) (xo yo zo : ℕ)
    (hxo : xo < 16) (hyo : yo < 16) (hzo : zo < 16)
    (hx : x = cx * 16 + (xo : ℤ)) (hy : y = sy * 16 + (yo : ℤ))
    (hz : z = cz * 16 + (zo : ℤ))
    (hin : bounds.1.x ≤ x ∧ x < bounds.2.x ∧ bounds.1.y ≤ y ∧
      y < bounds.2.y ∧ bounds.1.z ≤ z ∧ z < bounds.2.z)
    (s₀ : McSection) (hsy : s₀.y = sy)
    (hpal : (buildPaletteIds (sectionCells.map
      (cellBlock v bounds cx cz sy))).1.length ≤ 16)
    (nn : String) (pp : List (String × String)) (hWF : specWF nn pp)
    (hveq : v (x - bounds.1.x) (y - bounds.1.y) (z - bounds.1.z) =
      stringifyBlock nn pp) :
    ∀ w, decodeSection bounds cx cz (encodeSection v bounds cx cz s₀) w
      (x - bounds.1.x) (y - bounds.1.y) (z - bounds.1.z) =
      v (x - bounds.1.x) (y - bounds.1.y) (z - bounds.1.z) := by
  intro w
  have hcellslen : (sectionCells.map
      (cellBlock v bounds cx cz sy)).length = 4096 := by
    rw [List.length_map, sectionCells_length]
  have hidxlt : 256 * yo + 16 * zo + xo < 4096 := by omega
  have hcell : (sectionCells.map (cellBlock v bounds cx cz sy)).getD
      (256 * yo + 16 * zo + xo) "" =
      v (x - bounds.1.x) (y - bounds.1.y) (z - bounds.1.z) := by
    rw [cells_getD v bounds cx cz sy yo zo xo hyo hzo hxo,
      cellBlock_self v bounds cx cz sy x y z xo yo zo hx hy hz hin, hveq,
      canonical_stringify nn pp hWF]
  have hb : v (x - bounds.1.x) (y - bounds.1.y) (z - bounds.1.z) ∈
      (buildPaletteIds (sectionCells.map
        (cellBlock v bounds cx cz sy))).1 := by
    apply buildPaletteIds_mem
    rw [← hcell,
      List.getD_eq_getElem _ _ (by rw [hcellslen]; exact hidxlt)]
    exact List.getElem_mem _
  have hids_len : (buildPaletteIds (sectionCells.map
      (cellBlock v bounds cx cz sy))).2.length = 4096 := by
    rw [buildPaletteIds_ids, List.length_map, hcellslen]
  have henc := encodeSection_eq v bounds cx cz s₀
  rw [hsy] at henc
  by_cases hgt : (buildPaletteIds (sectionCells.map
      (cellBlock v bounds cx cz sy))).1.length > 1
  · rw [if_pos hgt] at henc
    rw [henc, decodeSection_some_data]
    have hyf : y.fdiv 16 = sy := fdiv16_eq y sy (by omega) (by omega)
    have hge : bounds.1.y.fdiv 16 ≤ sy := by
      have h1 := fdiv16_le bounds.1.y y (by omega)
      omega
    rw [if_neg (by omega), if_neg (by omega)]
    have hlenP : (packLongs (buildPaletteIds (sectionCells.map
        (cellBlock v bounds cx cz sy))).2).length = 256 := by
      rw [packLongs, List.length_map, List.length_range, hids_len]
    have hval : ((((buildPaletteIds (sectionCells.map
        (cellBlock v bounds cx cz sy))).1.map encPaletteEntry).map
          decodePaletteEntry).getD
        (extractId ((packLongs (buildPaletteIds (sectionCells.map
          (cellBlock v bounds cx cz sy))).2).getD (16 * yo + zo) (0, 0))
          (15 - xo)) "undefined") =
        v (x - bounds.1.x) (y - bounds.1.y) (z - bounds.1.z) := by
      rw [extractId_packLongs _ (16 * yo + zo) (15 - xo)
          (by rw [hids_len]; omega) (by omega)
          (buildPaletteIds_ids_lt _ hpal),
        show 16 * (16 * yo + zo) + 15 - (15 - xo) =
          256 * yo + 16 * zo + xo by omega,
        buildPaletteIds_ids_getD _ _ (by rw [hcellslen]; exact hidxlt),
        hcell]
      exact enc_palette_getD _ _ hb nn pp hWF hveq
    exact decodeDataStore_cell bounds cx cz sy x y z xo yo zo hxo hyo hzo
      hx hy hz hin _ _ hlenP _ hval w
  · rw [if_neg hgt] at henc
    rw [henc, decodeSection_some_fill]
    have hpos : 0 < (buildPaletteIds (sectionCells.map
        (cellBlock v bounds cx cz sy))).1.length :=
      List.length_pos.mpr (List.ne_nil_of_mem hb)
    have honeLen : (buildPaletteIds (sectionCells.map
        (cellBlock v bounds cx cz sy))).1.length = 1 := by omega
    obtain ⟨a, ha⟩ := List.length_eq_one.mp honeLen
    have hab : a = v (x - bounds.1.x) (y - bounds.1.y)
        (z - bounds.1.z) := by
      have hm := hb
      rw [ha, List.mem_singleton] at hm
      exact hm.symm
    have hval : ((((buildPaletteIds (sectionCells.map
        (cellBlock v bounds cx cz sy))).1.map encPaletteEntry).map
          decodePaletteEntry).getD 0 "undefined") =
        v (x - bounds.1.x) (y - bounds.1.y) (z - bounds.1.z) := by
      rw [ha]
      simp only [List.map_cons, List.map_nil, List.getD_cons_zero]
      rw [hab, hveq]
      exact decode_enc_palette nn pp hWF
    exact decodeFill_cell bounds cx cz sy x y z xo yo zo hxo hyo hzo
      hx hy hz hin _ _ hval w

/-- Any packed data the encoder emits holds exactly 256 longs, hence at
most 256. -/
theorem encodeSection_data_le (v : Volume) (bounds : Vec3 × Vec3)
    (cx cz : ℤ) (s' : McSection) :
    ∀ bs longs, (encodeSection v bounds cx cz s').blockStates = some bs →
      bs.data = some longs → longs.length ≤ 256 := by
  intro bs longs h1 h2
  rw [encodeSection_eq] at h1
  injection h1 with h1
  subst h1
  by_cases hgt : (buildPaletteIds (sectionCells.map
      (cellBlock v bounds cx cz s'.y))).1.length > 1
  · rw [if_pos hgt] at h2
    have h3 : some (packLongs (buildPaletteIds (sectionCells.map
        (cellBlock v bounds cx cz s'.y))).2) = some longs := h2
    injection h3 with h3
    rw [← h3, packLongs, List.length_map, List.length_range,
      buildPaletteIds_ids, List.length_map, List.length_map,
      sectionCells_length]
  · rw [if_neg hgt] at h2
    exact absurd (h2 : (none : Option (List (ℕ × ℕ))) = some longs)
      (by simp)

/-- Decoding a list of encoded sections covering an in-bounds cell's
section recovers the canonical volume entry at that cell. -/
theorem decodeSections_enc_hit (v : Volume) (bounds : Vec3 × Vec3)
    (cx cz sy x y z : ℤ) (xo yo zo : ℕ)
    (hxo : xo < 16) (hyo : yo < 16) (hzo : zo < 16)
    (hx : x = cx * 16 + (xo : ℤ)) (hy : y = sy * 16 + (yo : ℤ))
    (hz : z = cz * 16 + (zo : ℤ))
    (hin : bounds.1.x ≤ x ∧ x < bounds.2.x ∧ bounds.1.y ≤ y ∧
      y < bounds.2.y ∧ bounds.1.z ≤ z ∧ z < bounds.2.z)
    (secs : List McSection) (hcover : ∃ s₀ ∈ secs, s₀.y = sy)
    (hpal : (buildPaletteIds (sectionCells.map
      (cellBlock v bounds cx cz sy))).1.length ≤ 16)
    (nn : String) (pp : List (String × String)) (hWF : specWF nn pp)
    (hveq : v (x - bounds.1.x) (y - bounds.1.y) (z - bounds.1.z) =
      stringifyBlock nn pp) :
    ∀ w, decodeSections bounds cx cz
      (secs.map (encodeSection v bounds cx cz)) w
      (x - bounds.1.x) (y - bounds.1.y) (z - bounds.1.z) =
      v (x - bounds.1.x) (y - bounds.1.y) (z - bounds.1.z) := by
  intro w
  obtain ⟨s₀, hs₀mem, hs₀y⟩ := hcover
  have hyf : y.fdiv 16 = sy := fdiv16_eq y sy (by omega) (by omega)
  unfold decodeSections
  refine foldl_volume_hits _ (x - bounds.1.x) (y - bounds.1.y)
    (z - bounds.1.z)
    (v (x - bounds.1.x) (y - bounds.1.y) (z - bounds.1.z))
    (encodeSection v bounds cx cz s₀) _
    (List.mem_map_of_mem _ hs₀mem) ?_ ?_ w
  · intro w'
    exact decodeSection_enc_hit v bounds cx cz sy x y z xo yo zo hxo hyo
      hzo hx hy hz hin s₀ hs₀y hpal nn pp hWF hveq w'
  · intro w' sec hsec
    rw [List.mem_map] at hsec
    obtain ⟨s', hs'mem, rfl⟩ := hsec
    by_cases hcase : s'.y = sy
    · exact Or.inr (decodeSection_enc_hit v bounds cx cz sy x y z xo yo
        zo hxo hyo hzo hx hy hz hin s' hcase hpal nn pp hWF hveq w')
    · exact Or.inl (decodeSection_preserve bounds cx cz _ x y z
        (encodeSection_data_le v bounds cx cz s')
        (Or.inr (Or.inl (fun hc => hcase (hc.trans hyf)))) w')

/-- Decoding the sections of a different chunk never touches our cell. -/
theorem decodeSections_preserve (bounds : Vec3 × Vec3) (cx' cz' : ℤ)
    (secs : List McSection) (x y z : ℤ)
    (hdata : ∀ sec ∈ secs, ∀ bs longs, sec.blockStates = some bs →
      bs.data = some longs → longs.length ≤ 256)
    (h : cx' ≠ x.fdiv 16 ∨ cz' ≠ z.fdiv 16) :
    ∀ w, decodeSections bounds cx' cz' secs w (x - bounds.1.x)
      (y - bounds.1.y) (z - bounds.1.z) =
      w (x - bounds.1.x) (y - bounds.1.y) (z - bounds.1.z) := by
  intro w
  unfold decodeSections
  refine foldl_volume_preserve _ (x - bounds.1.x) (y - bounds.1.y)
    (z - bounds.1.z) _ ?_ w
  intro w' sec hsec
  refine decodeSection_preserve bounds cx' cz' sec x y z
    (hdata sec hsec) ?_ w'
  rcases h with h' | h'
  · exact Or.inl h'
  · exact Or.inr (Or.inr h')

/-- Decomposing a coordinate into its chunk index and offset. -/
theorem fdiv16_off (a : ℤ) :
    a = a.fdiv 16 * 16 + ((a - 16 * a.fdiv 16).toNat : ℤ) ∧
    (a - 16 * a.fdiv 16).toNat < 16 := by
  rw [Int.fdiv_eq_ediv _ (by norm_num)]
  refine ⟨by omega, by omega⟩

/-- `16 * (a fdiv 16) ≤ a`. -/
theorem fdiv16_mul_le (a : ℤ) : 16 * a.fdiv 16 ≤ a := by
  rw [Int.fdiv_eq_ediv _ (by norm_num)]
  omega

/-- Distinct header slots address distinct chunks. -/
theorem chunk_slot_ne (rx rz : ℤ) (i ic : ℕ) (hi : i < 1024)
    (hic : ic < 1024) (hne : i ≠ ic) :
    chunkX rx i ≠ chunkX rx ic ∨ chunkZ rz i ≠ chunkZ rz ic := by
  unfold chunkX chunkZ
  by_cases hx : i % 32 = ic % 32
  · right
    intro hcon
    omega
  · left
    intro hcon
    omega

/-- `blocksToRegion` applies the per-slot step to every header slot. -/
theorem blocksToRegion_apply (encSize encHash : ℕ → List McSection → ℕ)
    (v : Volume) (r : RegionBuf) (rx rz : ℤ) (bounds : Vec3 × Vec3)
    (j : ℕ) (hj : j < 1024) :
    (blocksToRegion encSize encHash v r rx rz bounds).1 j =
      (blocksToRegionSlot encSize encHash v bounds rx rz j (r j)).1 := by
  unfold blocksToRegion
  have h := (slotFold_spec (blocksToRegionSlot encSize encHash v bounds
    rx rz) (List.range 1024) (List.nodup_range 1024) (r, [])).1 j
  rw [if_pos (List.mem_range.mpr hj)] at h
  exact h

/-- The per-slot step on an in-bounds, parseable, fitting chunk replaces
its sections by their re-encodes. -/
theorem blocksToRegionSlot_enc (encSize encHash : ℕ → List McSection → ℕ)
    (v : Volume) (bounds : Vec3 × Vec3) (rx rz : ℤ) (i : ℕ) (c : McChunk)
    (secs : List McSection)
    (hin : chunkInBounds bounds (chunkX rx i) (chunkZ rz i))
    (hsec : c.sections = some secs)
    (hfit : encSize c.rest (secs.map (encodeSection v bounds (chunkX rx i)
      (chunkZ rz i))) + 5 ≤ 4096) :
    (blocksToRegionSlot encSize encHash v bounds rx rz i c).1 =
      { rest := c.rest,
        hashVal := encHash c.rest (secs.map (encodeSection v bounds
          (chunkX rx i) (chunkZ rz i))),
        sections := some (secs.map (encodeSection v bounds (chunkX rx i)
          (chunkZ rz i))) } := by
  unfold blocksToRegionSlot
  rw [if_pos hin]
  simp only [hsec]
  rw [if_neg (by omega)]

/-- A cell already holding `s` still holds `s` after the slot loop of
`regionToBlocks`, when every in-bounds slot decodes to a preserve-or-set
of that cell. -/
theorem regionToBlocksGo_stay (bounds : Vec3 × Vec3) (rx rz : ℤ)
    (r : RegionBuf) (a b c : ℤ) (s : String) :
    ∀ l : List ℕ, ∀ fh : Option ℕ, ∀ w : Volume,
      (∀ i ∈ l, chunkInBounds bounds (chunkX rx i) (chunkZ rz i) →
        ∃ secs, (r i).sections = some secs ∧
          ∀ w' : Volume,
            decodeSections bounds (chunkX rx i) (chunkZ rz i) secs w'
              a b c = w' a b c ∨
            decodeSections bounds (chunkX rx i) (chunkZ rz i) secs w'
              a b c = s) →
      w a b c = s →
      (regionToBlocksGo bounds rx rz r none l fh w).2 a b c = s := by
  intro l
  induction l with
  | nil => intro fh w _ hw; exact hw
  | cons i rest ih =>
    intro fh w hall hw
    simp only [regionToBlocksGo]
    by_cases hcb : chunkInBounds bounds (chunkX rx i) (chunkZ rz i)
    · rw [if_pos hcb,
        if_neg (by rintro ⟨_, hcon⟩; exact Option.noConfusion hcon)]
      obtain ⟨secs, hsecs, hdec⟩ := hall i (List.mem_cons_self i rest) hcb
      simp only [hsecs]
      refine ih _ _ (fun i' hi' => hall i' (List.mem_cons_of_mem i hi'))
        ?_
      rcases hdec w with h' | h'
      · rw [h', hw]
      · exact h'
    · rw [if_neg hcb]
      exact ih _ _ (fun i' hi' => hall i' (List.mem_cons_of_mem i hi'))
        hw

/-- The slot loop of `regionToBlocks` ends with a cell at `s` when one
in-bounds slot sets it to `s` and every in-bounds slot preserves-or-sets
it. -/
theorem regionToBlocksGo_hits (bounds : Vec3 × Vec3) (rx rz : ℤ)
    (r : RegionBuf) (a b c : ℤ) (s : String) (ic : ℕ)
    (hicb : chunkInBounds bounds (chunkX rx ic) (chunkZ rz ic))
    (hichit : ∀ secsic, (r ic).sections = some secsic →
      ∀ w' : Volume, decodeSections bounds (chunkX rx ic) (chunkZ rz ic)
        secsic w' a b c = s) :
    ∀ l : List ℕ, ∀ fh : Option ℕ, ∀ w : Volume, ic ∈ l →
      (∀ i ∈ l, chunkInBounds bounds (chunkX rx i) (chunkZ rz i) →
        ∃ secs, (r i).sections = some secs ∧
          ∀ w' : Volume,
            decodeSections bounds (chunkX rx i) (chunkZ rz i) secs w'
              a b c = w' a b c ∨
            decodeSections bounds (chunkX rx i) (chunkZ rz i) secs w'
              a b c = s) →
      (regionToBlocksGo bounds rx rz r none l fh w).2 a b c = s := by
  intro l
  induction l with
  | nil => intro fh w hmem _; exact absurd hmem (List.not_mem_nil ic)
  | cons i rest ih =>
    intro fh w hmem hall
    simp only [regionToBlocksGo]
    by_cases hcb : chunkInBounds bounds (chunkX rx i) (chunkZ rz i)
    · rw [if_pos hcb,
        if_neg (by rintro ⟨_, hcon⟩; exact Option.noConfusion hcon)]
      obtain ⟨secs, hsecs, hdec⟩ := hall i (List.mem_cons_self i rest) hcb
      simp only [hsecs]
      by_cases hic : i = ic
      · subst hic
        exact regionToBlocksGo_stay bounds rx rz r a b c s rest _ _
          (fun i' hi' => hall i' (List.mem_cons_of_mem i hi'))
          (hichit secs hsecs w)
      · have hicr : ic ∈ rest := by
          rcases List.mem_cons.mp hmem with h' | h'
          · exact absurd h'.symm hic
          · exact h'
        exact ih _ _ hicr
          (fun i' hi' => hall i' (List.mem_cons_of_mem i hi'))
    · rw [if_neg hcb]
      have hicr : ic ∈ rest := by
        rcases List.mem_cons.mp hmem with h' | h'
        · rw [h'] at hicb
          exact absurd hicb hcb
        · exact h'
      exact ih _ _ hicr
        (fun i' hi' => hall i' (List.mem_cons_of_mem i hi'))

set_option maxHeartbeats 1600000 in
set_option maxRecDepth 8000 in
/-- C1: encoding a dense block volume into a region buffer with
`blocksToRegion` and then decoding the same bounds from that buffer with
`regionToBlocks` reproduces the same block specification at every cell,
state properties included, for any palette size from 1 to 16. Stated at
an arbitrary in-bounds cell whose chunk sits at header slot `ic` of this
region, for a buffer whose in-bounds chunks parse, whose re-encoded
payloads fit their sectors, with a stored section covering the cell's Y
section, the cell's section palette within the 16-entry limit, and the
volume holding canonical well-formed block strings. -/
theorem encode_decode_roundtrip
    (encSize encHash : ℕ → List McSection → ℕ) (v v₀ : Volume)
    (r : RegionBuf) (rx rz : ℤ) (bounds : Vec3 × Vec3)
    (x y z : ℤ) (ic : ℕ) (hic : ic < 1024)
    (hcx : chunkX rx ic = x.fdiv 16) (hcz : chunkZ rz ic = z.fdiv 16)
    (hin : bounds.1.x ≤ x ∧ x < bounds.2.x ∧ bounds.1.y ≤ y ∧
      y < bounds.2.y ∧ bounds.1.z ≤ z ∧ z < bounds.2.z)
    (hnc : ∀ i, i < 1024 →
      chunkInBounds bounds (chunkX rx i) (chunkZ rz i) →
      ∃ ss, (r i).sections = some ss)
    (hfit : ∀ i, i < 1024 → ∀ ss, (r i).sections = some ss →
      encSize (r i).rest (ss.map (encodeSection v bounds (chunkX rx i)
        (chunkZ rz i))) + 5 ≤ 4096)
    (hcover : ∀ ss, (r ic).sections = some ss →
      ∃ s₀ ∈ ss, s₀.y = y.fdiv 16)
    (hpal : (buildPaletteIds (sectionCells.map (cellBlock v bounds
      (x.fdiv 16) (z.fdiv 16) (y.fdiv 16)))).1.length ≤ 16)
    (hspec : ∃ nn pp, specWF nn pp ∧
      v (x - bounds.1.x) (y - bounds.1.y) (z - bounds.1.z) =
        stringifyBlock nn pp) :
    (regionToBlocks (blocksToRegion encSize encHash v r rx rz bounds).1
      v₀ rx rz bounds none).2
      (x - bounds.1.x) (y - bounds.1.y) (z - bounds.1.z) =
      v (x - bounds.1.x) (y - bounds.1.y) (z - bounds.1.z) := by
  obtain ⟨nn, pp, hWF, hveq⟩ := hspec
  have hox := fdiv16_off x
  have hoy := fdiv16_off y
  have hoz := fdiv16_off z
  have hicb : chunkInBounds bounds (chunkX rx ic) (chunkZ rz ic) := by
    rw [hcx, hcz]
    unfold chunkInBounds
    have h1 := fdiv16_mul_le x
    have h2 := fdiv16_mul_le z
    exact ⟨fdiv16_le _ _ (by omega), by omega,
      fdiv16_le _ _ (by omega), by omega⟩
  have hr' : ∀ i, i < 1024 →
      chunkInBounds bounds (chunkX rx i) (chunkZ rz i) →
      ∃ ss, (r i).sections = some ss ∧
        (blocksToRegion encSize encHash v r rx rz bounds).1 i =
          { rest := (r i).rest,
            hashVal := encHash (r i).rest (ss.map (encodeSection v
              bounds (chunkX rx i) (chunkZ rz i))),
            sections := some (ss.map (encodeSection v bounds
              (chunkX rx i) (chunkZ rz i))) } := by
    intro i hi hib
    obtain ⟨ss, hss⟩ := hnc i hi hib
    exact ⟨ss, hss, by
      rw [blocksToRegion_apply encSize encHash v r rx rz bounds i hi,
        blocksToRegionSlot_enc encSize encHash v bounds rx rz i (r i) ss
          hib hss (hfit i hi ss hss)]⟩
  unfold regionToBlocks
  refine regionToBlocksGo_hits bounds rx rz
    (blocksToRegion encSize encHash v r rx rz bounds).1
    (x - bounds.1.x) (y - bounds.1.y) (z - bounds.1.z)
    (v (x - bounds.1.x) (y - bounds.1.y) (z - bounds.1.z)) ic hicb ?_
    (List.range 1024) none v₀ (List.mem_range.mpr hic) ?_
  · intro secsic hsecsic w'
    obtain ⟨ss, hss, hreq⟩ := hr' ic hic hicb
    rw [hreq] at hsecsic
    have h2 : some (ss.map (encodeSection v bounds (chunkX rx ic)
        (chunkZ rz ic))) = some secsic := hsecsic
    injection h2 with h2
    rw [← h2, hcx, hcz]
    obtain ⟨s₀, hs₀, hs₀y⟩ := hcover ss hss
    exact decodeSections_enc_hit v bounds (x.fdiv 16) (z.fdiv 16)
      (y.fdiv 16) x y z _ _ _ hox.2 hoy.2 hoz.2 hox.1 hoy.1 hoz.1 hin ss
      ⟨s₀, hs₀, hs₀y⟩ hpal nn pp hWF hveq w'
  · intro i hi hib
    have hi' : i < 1024 := List.mem_range.mp hi
    obtain ⟨ss, hss, hreq⟩ := hr' i hi' hib
    refine ⟨ss.map (encodeSection v bounds (chunkX rx i) (chunkZ rz i)),
      by rw [hreq], ?_⟩
    intro w'
    by_cases hiic : i = ic
    · subst hiic
      right
      rw [hcx, hcz]
      obtain ⟨s₀, hs₀, hs₀y⟩ := hcover ss hss
      exact decodeSections_enc_hit v bounds (x.fdiv 16) (z.fdiv 16)
        (y.fdiv 16) x y z _ _ _ hox.2 hoy.2 hoz.2 hox.1 hoy.1 hoz.1 hin
        ss ⟨s₀, hs₀, hs₀y⟩ hpal nn pp hWF hveq w'
    · left
      refine decodeSections_preserve bounds (chunkX rx i) (chunkZ rz i)
        _ x y z ?_ ?_ w'
      · intro sec hsec
        rw [List.mem_map] at hsec
        obtain ⟨s', _, rfl⟩ := hsec
        exact encodeSection_data_le v bounds (chunkX rx i) (chunkZ rz i)
          s'
      · rcases chunk_slot_ne rx rz i ic hi' hic hiic with h' | h'
        · rw [hcx] at h'
          exact Or.inl h'
        · rw [hcz] at h'
          exact Or.inr h'

/-- Over a constant volume, every encoder cell fetch is the canonical
form of the constant or of `"air"`. -/
theorem cellBlock_const_mem (v : Volume) (bounds : Vec3 × Vec3)
    (cx cz sy : ℤ) (c : ℕ × ℕ × ℕ) (s : String)
    (hv : ∀ a b c', v a b c' = s) :
    cellBlock v bounds cx cz sy c = canonicalBlock s ∨
    cellBlock v bounds cx cz sy c = canonicalBlock "air" := by
  simp only [cellBlock]
  split
  · left
    rw [hv]
  · right
    rfl

set_option maxHeartbeats 1600000 in
set_option maxRecDepth 100000 in
/-- Witness for `encode_decode_roundtrip`: a one-section one-chunk
region over the constant `"stone"` volume with unit bounds round-trips
the origin cell. -/
theorem encode_decode_roundtrip_witness :
    (regionToBlocks (blocksToRegion (fun _ _ => 0) (fun _ _ => 0)
        (fun _ _ _ => "stone") (fun _ => ⟨0, 0, some [⟨0, none⟩]⟩) 0 0
        ((⟨0, 0, 0⟩ : Vec3), (⟨1, 1, 1⟩ : Vec3))).1
      (fun _ _ _ => "") 0 0 ((⟨0, 0, 0⟩ : Vec3), (⟨1, 1, 1⟩ : Vec3))
      none).2
      (0 - ((⟨0, 0, 0⟩ : Vec3), (⟨1, 1, 1⟩ : Vec3)).1.x)
      (0 - ((⟨0, 0, 0⟩ : Vec3), (⟨1, 1, 1⟩ : Vec3)).1.y)
      (0 - ((⟨0, 0, 0⟩ : Vec3), (⟨1, 1, 1⟩ : Vec3)).1.z) = "stone" := by
  have hpal16 : (buildPaletteIds (sectionCells.map (cellBlock
      (fun _ _ _ => "stone") ((⟨0, 0, 0⟩ : Vec3), (⟨1, 1, 1⟩ : Vec3))
      ((0 : ℤ).fdiv 16) ((0 : ℤ).fdiv 16)
      ((0 : ℤ).fdiv 16)))).1.length ≤ 16 := by
    have hnd := buildPaletteIds_nodup (sectionCells.map (cellBlock
      (fun _ _ _ => "stone") ((⟨0, 0, 0⟩ : Vec3), (⟨1, 1, 1⟩ : Vec3))
      ((0 : ℤ).fdiv 16) ((0 : ℤ).fdiv 16) ((0 : ℤ).fdiv 16)))
    have hsub : (buildPaletteIds (sectionCells.map (cellBlock
        (fun _ _ _ => "stone") ((⟨0, 0, 0⟩ : Vec3), (⟨1, 1, 1⟩ : Vec3))
        ((0 : ℤ).fdiv 16) ((0 : ℤ).fdiv 16) ((0 : ℤ).fdiv 16)))).1 ⊆
        ["stone", "air"] := by
      intro b hb
      obtain ⟨cell, _, rfl⟩ :=
        List.mem_map.mp (buildPaletteIds_subset _ _ hb)
      rcases cellBlock_const_mem (fun _ _ _ => "stone")
          ((⟨0, 0, 0⟩ : Vec3), (⟨1, 1, 1⟩ : Vec3)) ((0 : ℤ).fdiv 16)
          ((0 : ℤ).fdiv 16) ((0 : ℤ).fdiv 16) cell "stone"
          (fun _ _ _ => rfl) with h | h <;> rw [h]
      · rw [show canonicalBlock "stone" = "stone" from by decide]
        exact List.mem_cons_self _ _
      · rw [show canonicalBlock "air" = "air" from by decide]
        exact List.mem_cons_of_mem _ (List.mem_singleton.mpr rfl)
    exact le_trans
      (List.Subperm.length_le (List.Nodup.subperm hnd hsub))
      (by norm_num)
  exact encode_decode_roundtrip (fun _ _ => 0) (fun _ _ => 0)
    (fun _ _ _ => "stone") (fun _ _ _ => "")
    (fun _ => ⟨0, 0, some [⟨0, none⟩]⟩) 0 0
    ((⟨0, 0, 0⟩ : Vec3), (⟨1, 1, 1⟩ : Vec3)) 0 0 0 0
    (by norm_num) (by decide) (by decide) (by decide)
    (fun i _ _ => ⟨[⟨0, none⟩], rfl⟩)
    (fun i _ ss _ => by norm_num)
    (fun ss hss => by
      have h : some ([⟨0, none⟩] : List McSection) = some ss := hss
      injection h with h
      subst h
      exact ⟨⟨0, none⟩, List.mem_singleton.mpr rfl, by decide⟩)
    hpal16
    ⟨"stone", [], ⟨by decide, fun p hp => absurd hp (List.not_mem_nil p),
      List.nodup_nil, List.Pairwise.nil⟩, by decide⟩
